import Mathlib

/-!
Verification of the sinkingfund core: calendar arithmetic
(`utils/date_utils.py`), the recurring-obligation model
(`models/bills.py`), funding targets and ledgers (`models/envelope.py`,
`models/cash_flow.py`), and the two schedulers
(`schedules/indep_scheduler.py`, `schedules/lp_scheduler.py`).

Dates are modelled as proleptic-Gregorian (year, month, day) triples,
mirroring Python's `datetime.date`; ordering and day differences go
through the day ordinal (CPython's `toordinal`).  Monetary amounts are
exact rationals; Python's `round(x, 2)` (banker's rounding on the exact
value) is `round2`.  Python integer `//` and `%` (floor semantics for
positive divisors) are Lean's `Int` `/` and `%` (Euclidean, which agrees
with floor division for positive divisors).
-/

namespace SinkingFund

/-- `calendar.isleap(year)`: `year % 4 == 0 and (year % 100 != 0 or
year % 400 == 0)`. -/
def isLeapYear (y : Int) : Bool :=
  y % 4 == 0 && (y % 100 != 0 || y % 400 == 0)

/-- `calendar.monthrange(year, month)[1]`: number of days in the month. -/
def daysInMonth (y m : Int) : Int :=
  if m = 2 then (if isLeapYear y then 29 else 28)
  else if m = 4 ∨ m = 6 ∨ m = 9 ∨ m = 11 then 30
  else 31

/-- A proleptic Gregorian calendar date, as in Python `datetime.date`. -/
structure Date where
  year : Int
  month : Int
  day : Int
deriving DecidableEq, Repr

/-- The date is a real calendar date. -/
def Date.Valid (d : Date) : Prop :=
  1 ≤ d.month ∧ d.month ≤ 12 ∧ 1 ≤ d.day ∧ d.day ≤ daysInMonth d.year d.month

instance (d : Date) : Decidable d.Valid := by
  unfold Date.Valid; infer_instance

/-- CPython `_days_before_year`: days before January 1st of `y`. -/
def daysBeforeYear (y : Int) : Int :=
  (y - 1) * 365 + (y - 1) / 4 - (y - 1) / 100 + (y - 1) / 400

/-- CPython `_days_before_month`: days in `y` preceding month `m`. -/
def daysBeforeMonth (y m : Int) : Int :=
  (if m = 1 then 0 else if m = 2 then 31 else if m = 3 then 59
   else if m = 4 then 90 else if m = 5 then 120 else if m = 6 then 151
   else if m = 7 then 181 else if m = 8 then 212 else if m = 9 then 243
   else if m = 10 then 273 else if m = 11 then 304 else 334)
  + (if 2 < m ∧ isLeapYear y then 1 else 0)

/-- CPython `date.toordinal`: day 1 is 0001-01-01. -/
def Date.toRD (d : Date) : Int :=
  daysBeforeYear d.year + daysBeforeMonth d.year d.month + d.day

/-- The day after `d` (the semantics of `d + timedelta(days=1)`). -/
def succDay (d : Date) : Date :=
  if d.day < daysInMonth d.year d.month then ⟨d.year, d.month, d.day + 1⟩
  else if d.month < 12 then ⟨d.year, d.month + 1, 1⟩
  else ⟨d.year + 1, 1, 1⟩

/-- `d + timedelta(days=n)` for `n ≥ 0`, as `n` single-day steps. -/
def Date.addDays (d : Date) (n : Nat) : Date :=
  succDay^[n] d

/-- `increment_monthly` from `date_utils.py`: 0-based month arithmetic
with day normalisation to the last valid day of the target month. -/
def increment_monthly (date : Date) (num_months : Int) : Date :=
  let month0 := date.month - 1 + num_months
  let year := date.year + month0 / 12
  let month := month0 % 12 + 1
  let day := min date.day (daysInMonth year month)
  ⟨year, month, day⟩

/-- Supported billing frequencies (the `Frequency` enum). -/
inductive Frequency
  | daily
  | weekly
  | monthly
  | quarterly
  | annual
deriving DecidableEq, Repr

/-- Errors surfaced by the embedded functions.  `valueError` covers the
`ValueError`s raised explicitly by the source; `typeError` models the
`TypeError` Python raises when a `None` interval reaches the
`interval < 1` guard of `increment_date` (`None < 1`), before any
explicit raise; the other constructors model the remaining Python
failures (an unsupported frequency value, `IndexError`/`KeyError` on
lookups).  `fuelExhausted` marks the out-of-fuel case of the loop
encodings; termination theorems show it is unreachable for the stated
inputs. -/
inductive Err
  | valueError (msg : String)
  | typeError
  | unsupportedFrequency
  | indexError
  | keyError
  | fuelExhausted
deriving DecidableEq, Repr

/-- `increment_date` from `date_utils.py`.  A `none` frequency models
Python's `None` (or unsupported string) frequency, which cannot be
processed. -/
def increment_date (reference_date : Date) (frequency : Option Frequency)
    (interval : Int) (num_intervals : Int) : Except Err Date :=
  if interval < 1 then .error (.valueError "interval must be positive.")
  else if num_intervals < 1 then
    .error (.valueError "num_intervals must be positive.")
  else
    match frequency with
    | none => .error .unsupportedFrequency
    | some f =>
      let effective_interval := interval * num_intervals
      match f with
      | .daily => .ok (reference_date.addDays effective_interval.toNat)
      | .weekly => .ok (reference_date.addDays (7 * effective_interval).toNat)
      | .monthly => .ok (increment_monthly reference_date effective_interval)
      | .quarterly =>
          .ok (increment_monthly reference_date (3 * effective_interval))
      | .annual =>
          let y := reference_date.year + effective_interval
          if reference_date.day ≤ daysInMonth y reference_date.month then
            .ok ⟨y, reference_date.month, reference_date.day⟩
          else
            .ok ⟨y, reference_date.month, 28⟩

/-- The value `increment_date` produces for a supported frequency and
positive arguments, as a pure step of `n` effective interval units. -/
def pureStep (f : Frequency) (n : Int) (x : Date) : Date :=
  match f with
  | .daily => x.addDays n.toNat
  | .weekly => x.addDays (7 * n).toNat
  | .monthly => increment_monthly x n
  | .quarterly => increment_monthly x (3 * n)
  | .annual =>
      if x.day ≤ daysInMonth (x.year + n) x.month then
        ⟨x.year + n, x.month, x.day⟩
      else ⟨x.year + n, x.month, 28⟩

/-- The while-loop skeleton shared by the stepping loops: iterate `step`
while `pred` holds, with explicit fuel standing in for the Python
`while` loop. -/
def stepWhile (step : Date → Except Err Date) (pred : Date → Bool) :
    Nat → Date → Except Err Date
  | 0, _ => .error .fuelExhausted
  | fuel + 1, cur =>
      if pred cur then
        match step cur with
        | .error e => .error e
        | .ok c2 => stepWhile step pred fuel c2
      else .ok cur

/-- `BillInstance` from `models/bills.py` (the `service` field plays no
role in any behaviour modelled here and is omitted). -/
structure BillInstance where
  due_date : Date
  bill_id : String
  amount_due : ℚ
deriving DecidableEq, Repr

/-- The `Bill` state after `__init__` standardisation.  For bills the
constructor leaves without a start date (never produced by the
modelled construction paths) see `Bill.make`. -/
structure Bill where
  bill_id : String
  amount_due : ℚ
  recurring : Bool
  start_date : Date
  end_date : Option Date
  frequency : Option Frequency
  interval : Option Int
  occurrences : Option Int
deriving DecidableEq, Repr

/-- `Bill._next_due_date`: one step of the recurring schedule.  A
`None` interval crashes with a `TypeError` at the first statement of
`increment_date` (the comparison `None < 1`), before any explicit
raise; since the embedded `increment_date` takes an `Int`, that
failure is modelled at this call boundary. -/
def Bill.next_due_date (b : Bill) (curr_due_date : Date) : Except Err Date :=
  match b.interval with
  | none => .error .typeError
  | some i => increment_date curr_due_date b.frequency i 1

/-- `end is not None and end < x` as the source writes it. -/
def afterEndB (endD : Option Date) (x : Date) : Bool :=
  match endD with
  | some e => decide (e.toRD < x.toRD)
  | none => false

/-- `Bill.next_instance`: the three-branch lookup with the stepping
loop; fuel encodes the `while` loop and is provably sufficient. -/
def Bill.next_instance (b : Bill) (reference_date : Date)
    (inclusive : Bool) : Except Err (Option BillInstance) :=
  if afterEndB b.end_date reference_date then .ok none
  else if reference_date.toRD < b.start_date.toRD then
    .ok (some ⟨b.start_date, b.bill_id, b.amount_due⟩)
  else
    let pred : Date → Bool := fun cur =>
      if inclusive then decide (cur.toRD < reference_date.toRD)
      else decide (cur.toRD ≤ reference_date.toRD)
    let fuel := (reference_date.toRD - b.start_date.toRD).toNat + 2
    match stepWhile b.next_due_date pred fuel b.start_date with
    | .error e => .error e
    | .ok current =>
        if afterEndB b.end_date current then .ok none
        else .ok (some ⟨current, b.bill_id, b.amount_due⟩)

/-- Loop skeleton of `instances_in_range`: collect the due dates of the
orbit while they stay at or below `endRD`. -/
def collectWhile (step : Date → Except Err Date) (endRD : Int) :
    Nat → Date → Except Err (List Date)
  | 0, _ => .error .fuelExhausted
  | fuel + 1, cur =>
      if cur.toRD ≤ endRD then
        match step cur with
        | .error e => .error e
        | .ok c2 =>
            match collectWhile step endRD fuel c2 with
            | .error e => .error e
            | .ok rest => .ok (cur :: rest)
      else .ok []

/-- `Bill.instances_in_range`. -/
def Bill.instances_in_range (b : Bill)
    (start_reference end_reference : Date) :
    Except Err (List BillInstance) :=
  if b.recurring = false then
    if start_reference.toRD ≤ b.start_date.toRD ∧
        b.start_date.toRD ≤ end_reference.toRD then
      .ok [⟨b.start_date, b.bill_id, b.amount_due⟩]
    else .ok []
  else if end_reference.toRD < b.start_date.toRD then .ok []
  else if (match b.end_date with
      | some e => decide (e.toRD < start_reference.toRD)
      | none => false) then .ok []
  else
    let endEff : Date := match b.end_date with
      | some e => if end_reference.toRD ≤ e.toRD then end_reference else e
      | none => end_reference
    let fuel := (endEff.toRD - b.start_date.toRD).toNat + 2
    match collectWhile b.next_due_date endEff.toRD fuel b.start_date with
    | .error e => .error e
    | .ok dates =>
        .ok ((dates.filter
            (fun d => start_reference.toRD ≤ d.toRD)).map
          (fun d => ⟨d, b.bill_id, b.amount_due⟩))

/-- Loop skeleton of `_calculate_occurrences_in_range`: count orbit
elements at or below `endRD`. -/
def countWhile (step : Date → Except Err Date) (endRD : Int) :
    Nat → Date → Except Err Nat
  | 0, _ => .error .fuelExhausted
  | fuel + 1, cur =>
      if cur.toRD ≤ endRD then
        match step cur with
        | .error e => .error e
        | .ok c2 =>
            match countWhile step endRD fuel c2 with
            | .error e => .error e
            | .ok n => .ok (n + 1)
      else .ok 0

/-- `Bill._calculate_occurrences_in_range`.  As in `_next_due_date`, a
`None` interval would hit `increment_date`'s `interval < 1` comparison
and crash with a `TypeError`, modelled at the call boundary. -/
def Bill.calculate_occurrences_in_range (start_d end_d : Date)
    (frequency : Option Frequency) (interval : Option Int) :
    Except Err Nat :=
  countWhile
    (fun cur => match interval with
      | none => .error .typeError
      | some i => increment_date cur frequency i 1)
    end_d.toRD ((end_d.toRD - start_d.toRD).toNat + 2) start_d

/-- `Bill.__init__` with its standardisation branches.  Construction
paths that Python would leave with a `None` start date (and which break
on first use) are reported as errors here. -/
def Bill.make (bill_id : String) (amount_due : ℚ) (recurring : Bool)
    (due_date : Option Date) (start_date : Option Date)
    (end_date : Option Date) (frequency : Option Frequency)
    (interval : Option Int) (occurrences : Option Int) :
    Except Err Bill :=
  if bill_id = "" then
    .error (.valueError "bill_id cannot be empty or whitespace")
  else if amount_due ≤ 0 then
    .error (.valueError "amount_due must be positive")
  else if recurring = false then
    match due_date with
    | none => .error (.valueError "non-recurring bill without due_date")
    | some dd =>
        .ok ⟨bill_id, amount_due, false, dd, some dd, frequency, interval,
          some 1⟩
  else
    match start_date with
    | none => .error (.valueError "recurring bill without start_date")
    | some sd =>
        match occurrences with
        | some n =>
            if end_date = none ∧ n = 1 then
              .ok ⟨bill_id, amount_due, false, sd, some sd, none, none,
                some 1⟩
            else if 1 < n then
              match increment_date sd frequency (interval.getD 0)
                  (n - 1) with
              | .error e => .error e
              | .ok ed =>
                  .ok ⟨bill_id, amount_due, true, sd, some ed, frequency,
                    interval, some n⟩
            else
              .ok ⟨bill_id, amount_due, true, sd, end_date, frequency,
                interval, some n⟩
        | none =>
            match end_date with
            | some ed =>
                match Bill.calculate_occurrences_in_range sd ed frequency
                    interval with
                | .error e => .error e
                | .ok cnt =>
                    .ok ⟨bill_id, amount_due, true, sd, some ed, frequency,
                      interval, some (cnt : Int)⟩
            | none =>
                .ok ⟨bill_id, amount_due, true, sd, none, frequency,
                  interval, none⟩

/-- Round to the nearest integer, ties to even: the rounding of both
Python's builtin `round` and `Decimal`'s default context. -/
def roundHalfEven (x : ℚ) : Int :=
  let f := ⌊x⌋
  let r := x - f
  if r < 1 / 2 then f
  else if 1 / 2 < r then f + 1
  else if f % 2 = 0 then f else f + 1

/-- Python `round(x, 2)` on the exact value. -/
def round2 (x : ℚ) : ℚ :=
  (roundHalfEven (100 * x) : ℚ) / 100

/-- `CashFlow` from `models/cash_flow.py` (ordering keys: date first). -/
structure CashFlow where
  date : Date
  bill_id : String
  amount : ℚ
deriving DecidableEq, Repr

/-- `CashFlow.is_inflow`. -/
def CashFlow.is_inflow (cf : CashFlow) : Bool :=
  decide (0 < cf.amount)

/-- `CashFlow.is_outflow`. -/
def CashFlow.is_outflow (cf : CashFlow) : Bool :=
  decide (cf.amount < 0)

/-- The `exclude` argument of the ledger queries. -/
inductive ExcludeKind
  | contributions
  | payouts
deriving DecidableEq, Repr

/-- `CashFlowSchedule.cash_flows_in_range`, with the date endpoints by
ordinal (Python compares the dates themselves). -/
def cash_flows_in_range (cash_flows : List CashFlow)
    (startRD endRD : Int) (exclude : Option ExcludeKind) :
    List CashFlow :=
  match exclude with
  | some .contributions =>
      cash_flows.filter (fun cf =>
        decide (startRD ≤ cf.date.toRD) && decide (cf.date.toRD ≤ endRD)
          && !cf.is_inflow)
  | some .payouts =>
      cash_flows.filter (fun cf =>
        decide (startRD ≤ cf.date.toRD) && decide (cf.date.toRD ≤ endRD)
          && !cf.is_outflow)
  | none =>
      cash_flows.filter (fun cf =>
        decide (startRD ≤ cf.date.toRD) && decide (cf.date.toRD ≤ endRD))

/-- `max(cf.date for cf in cash_flows)` by ordinal (0 for the empty
list, which the caller guards). -/
def maxDateRD : List CashFlow → Int
  | [] => 0
  | c :: rest => rest.foldl (fun acc cf => max acc cf.date.toRD) c.date.toRD

/-- `min(cf.date for cf in cash_flows)` by ordinal. -/
def minDateRD : List CashFlow → Int
  | [] => 0
  | c :: rest => rest.foldl (fun acc cf => min acc cf.date.toRD) c.date.toRD

/-- `CashFlowSchedule.total_amount_as_of_date`, including its defensive
early return of 0 when the ledger is empty or `as_of_date` lies after
every transaction. -/
def total_amount_as_of_date (cash_flows : List CashFlow)
    (as_of_date : Date) (exclude : Option ExcludeKind) : ℚ :=
  if cash_flows.length = 0 ∨ maxDateRD cash_flows < as_of_date.toRD then 0
  else
    ((cash_flows_in_range cash_flows (minDateRD cash_flows)
      as_of_date.toRD exclude).map (fun cf => cf.amount)).sum

/-- The funding-target fields `get_balance_as_of_date` reads. -/
structure Envelope where
  amount_due : ℚ
  initial_allocation : ℚ
  cash_flows : List CashFlow
deriving DecidableEq, Repr

/-- `Envelope.get_balance_as_of_date`. -/
def Envelope.get_balance_as_of_date (env : Envelope) (as_of_date : Date)
    (exclude : Option ExcludeKind) : ℚ :=
  env.initial_allocation +
    total_amount_as_of_date env.cash_flows as_of_date exclude

/-- The ledger of the repository's envelope lifecycle test: allocation
25, four 31.25 contributions (2024-01-01, -01-15, -01-29, -02-12),
bill of 150 due 2024-02-15. -/
def lifecycleEnvelope : Envelope :=
  ⟨150, 25, [⟨⟨2024, 1, 1⟩, "electric", 125 / 4⟩,
    ⟨⟨2024, 1, 15⟩, "electric", 125 / 4⟩,
    ⟨⟨2024, 1, 29⟩, "electric", 125 / 4⟩,
    ⟨⟨2024, 2, 12⟩, "electric", 125 / 4⟩]⟩

/-- `IndependentScheduler.calculate_intervals`.  Python `//` and `%`
agree with Lean's Euclidean `/` and `%` on `Int` for the positive
divisors used here. -/
def calculate_intervals (start_date end_date : Date) (interval : Int) :
    List Int :=
  let num_days := end_date.toRD - start_date.toRD
  let full_intervals := num_days / interval
  let remaining_days := num_days % interval
  let intervals := List.replicate full_intervals.toNat interval
  if 0 < remaining_days then intervals ++ [remaining_days] else intervals

/-- `IndependentScheduler.daily_contribution`. -/
def daily_contribution (remaining : ℚ) (due_date curr_date : Date) : ℚ :=
  let days_remaining := max 0 (due_date.toRD - curr_date.toRD)
  if days_remaining = 0 then remaining
  else round2 (remaining / (days_remaining : ℚ))

/-- The `for i, (days, amount) in enumerate(interval_contrib)` loop of
`IndependentScheduler.schedule`: the residual `diff` joins the `i = 0`
amount, zero amounts are skipped (without advancing the date, as in the
source), and the date advances by `days` only for `i > 0`. -/
def contribLoop (bill_id : String) (diff : ℚ) :
    List (Int × ℚ) → Nat → Date → List CashFlow
  | [], _, _ => []
  | (days, amount) :: rest, i, current_date =>
      if round2 (amount + (if i = 0 then diff else 0)) = 0 then
        contribLoop bill_id diff rest (i + 1) current_date
      else
        (⟨if 0 < i then current_date.addDays days.toNat else current_date,
          bill_id,
          round2 (amount + (if i = 0 then diff else 0))⟩ : CashFlow)
          :: contribLoop bill_id diff rest (i + 1)
            (if 0 < i then current_date.addDays days.toNat else current_date)

/-- One iteration of the `for envelope in envelopes` body of
`IndependentScheduler.schedule`, for the attributes the scheduler reads
(`envelope.bill`, `envelope.interval`, `envelope.remaining`).  `none`
is the skip of an envelope whose bill has no next instance; otherwise
the produced `envelope.schedule` value is returned. -/
def IndependentScheduler.schedule_envelope (env_bill : Bill)
    (env_interval : Int) (env_remaining : ℚ) (start_date : Date) :
    Except Err (Option (List CashFlow)) :=
  match env_bill.next_instance start_date false with
  | .error e => .error e
  | .ok none => .ok none
  | .ok (some bill) =>
      let intervals := calculate_intervals start_date bill.due_date
        env_interval
      let daily_contrib := daily_contribution env_remaining bill.due_date
        start_date
      let interval_contrib := intervals.map
        (fun interval : Int => (interval, (interval : ℚ) * daily_contrib))
      let diff := env_remaining -
        (interval_contrib.map (fun contrib => contrib.2)).sum
      .ok (some (contribLoop bill.bill_id diff interval_contrib 0
        start_date ++ [⟨bill.due_date, bill.bill_id,
          -env_bill.amount_due⟩]))

/-- A whole number of cents. -/
def IsCents (x : ℚ) : Prop := ∃ m : Int, x = (m : ℚ) / 100

/-- The interval index of a cash flow: full intervals since the start
date (`days_since_start // interval`; Python `//` agrees with Lean's
Euclidean `/` for the positive intervals used). -/
def intervalIndex (start_date : Date) (interval : Int) (cf : CashFlow) :
    Int :=
  (cf.date.toRD - start_date.toRD) / interval

/-- `LPScheduler.aggregate_cash_flows`.  `cash_flows[0]` on an empty
list raises `IndexError`.  The dictionary keyed by interval index and
walked with `sorted(int_contribs.items())` is modelled by the ascending
list of the distinct occurring indices with each index's total; only
positive totals are emitted, rounded to cents. -/
def LPScheduler.aggregate_cash_flows (cash_flows : List CashFlow)
    (start_date : Date) (interval : Int) : Except Err (List CashFlow) :=
  match cash_flows with
  | [] => .error .indexError
  | c0 :: _ =>
      let idxs := List.insertionSort (fun a b : Int => a ≤ b)
        ((cash_flows.map (intervalIndex start_date interval)).dedup)
      let total := fun idx : Int => ((cash_flows.filter
          (fun cf => decide (intervalIndex start_date interval cf
            = idx))).map (fun cf => cf.amount)).sum
      .ok ((idxs.filter (fun idx => decide (0 < total idx))).map
        (fun idx => ⟨start_date.addDays (idx * interval).toNat,
          c0.bill_id, round2 (total idx)⟩))

/-- One iteration of the aggregation loop of `LPScheduler.schedule`:
the dictionary lookup `opt_contrib[envelope.bill.bill_id]` (KeyError
when absent) followed by `aggregate_cash_flows`; the result is assigned
to `envelope.schedule` unchanged — no disbursement is appended. -/
def LPScheduler.schedule_envelope
    (opt_contrib : List (String × List CashFlow)) (env_bill_id : String)
    (start_date : Date) (env_interval : Int) :
    Except Err (List CashFlow) :=
  match opt_contrib.find? (fun p => decide (p.1 = env_bill_id)) with
  | none => .error .keyError
  | some p =>
      LPScheduler.aggregate_cash_flows p.2 start_date env_interval

/-- The pulp solver statuses. -/
inductive LpStatus
  | optimal
  | notSolved
  | infeasible
  | unbounded
  | undefined
deriving DecidableEq, Repr

/-- `pulp.LpStatus[...]`: the display name of a solver status. -/
def LpStatusName : LpStatus → String
  | .optimal => "Optimal"
  | .notSolved => "Not Solved"
  | .infeasible => "Infeasible"
  | .unbounded => "Unbounded"
  | .undefined => "Undefined"

/-- `LPScheduler.optimize_contributions`, parameterised by the solver
outcome (`status` and the solved variable values `x`): sorts by due
date, reads `bills[-1]` (IndexError on an empty list), raises
ValueError when the status is not `Optimal`, and otherwise returns the
per-bill daily cash flows `x[i, t]` for the `T` days from the start
date. -/
def LPScheduler.optimize_contributions (bills : List BillInstance)
    (start_date : Date) (status : LpStatus) (x : Nat → Nat → ℚ) :
    Except Err (List (String × List CashFlow)) :=
  let sorted := List.insertionSort
    (fun a b : BillInstance => a.due_date.toRD ≤ b.due_date.toRD) bills
  match sorted.getLast? with
  | none => .error .indexError
  | some last =>
      let T := last.due_date.toRD - start_date.toRD
      if LpStatusName status ≠ "Optimal" then
        .error (.valueError "Could not find optimal solution.")
      else
        .ok (sorted.enum.map (fun p =>
          (p.2.bill_id, (List.range T.toNat).map (fun t =>
            (⟨start_date.addDays t, p.2.bill_id, x p.1 t⟩ :
              CashFlow)))))

/-- The constraint system of the LP model built by
`optimize_contributions` (variables `x i t`, `y t`, `z`, `w`; `n` bills
with amounts and days-until-due, horizon `T`). -/
def LPFeasible (amounts : Nat → ℚ) (dues : Nat → Nat) (n T : Nat)
    (x : Nat → Nat → ℚ) (y : Nat → ℚ) (z w : ℚ) : Prop :=
  (∀ i, i < n → ∀ t, t < T → 0 ≤ x i t) ∧
  (∀ t, t < T → 0 ≤ y t) ∧
  0 ≤ z ∧
  0 ≤ w ∧
  (∀ i, i < n → (Finset.range (dues i)).sum (fun t => x i t)
    = amounts i) ∧
  (∀ i, i < n → ∀ t, dues i ≤ t → t < T → x i t = 0) ∧
  (∀ t, t < T → y t = (Finset.range n).sum (fun i => x i t)) ∧
  (∀ t, t < T → y t ≤ z) ∧
  (∀ t, t < T → w ≤ y t)

/-- The candidate solution: fund each bill evenly over its own days
until due. -/
def lpX (amounts : Nat → ℚ) (dues : Nat → Nat) (n i t : Nat) : ℚ :=
  if i < n ∧ t < dues i then amounts i / (dues i : ℚ) else 0

/-- The induced daily totals of the candidate solution. -/
def lpY (amounts : Nat → ℚ) (dues : Nat → Nat) (n t : Nat) : ℚ :=
  (Finset.range n).sum (fun i => lpX amounts dues n i t)

/-- The induced maximum bound of the candidate solution. -/
def lpZ (amounts : Nat → ℚ) (dues : Nat → Nat) (n : Nat) : ℚ :=
  (Finset.range n).sum (fun i => amounts i / (dues i : ℚ))

theorem daysInMonth_pos (y m : Int) : 28 ≤ daysInMonth y m := by
  unfold daysInMonth
  split_ifs <;> omega

theorem daysInMonth_le (y m : Int) : daysInMonth y m ≤ 31 := by
  unfold daysInMonth
  split_ifs <;> omega

/-- Stepping into the next month adds exactly the days of the month. -/
theorem daysBeforeMonth_succ (y m : Int) (h1 : 1 ≤ m) (h2 : m ≤ 11) :
    daysBeforeMonth y (m + 1) = daysBeforeMonth y m + daysInMonth y m := by
  unfold daysBeforeMonth daysInMonth
  cases hL : isLeapYear y <;>
    simp only [hL, Bool.false_eq_true, and_false, and_true, if_false,
      if_true] <;>
    omega

/-- Stepping into the next year adds 365 or 366 days. -/
theorem daysBeforeYear_succ (y : Int) :
    daysBeforeYear (y + 1) =
      daysBeforeYear y + 365 + (if isLeapYear y then 1 else 0) := by
  unfold daysBeforeYear isLeapYear
  split_ifs with h
  · simp only [Bool.and_eq_true, Bool.or_eq_true, beq_iff_eq, bne_iff_ne,
      decide_eq_true_eq] at h
    omega
  · simp only [Bool.and_eq_true, Bool.or_eq_true, beq_iff_eq, bne_iff_ne,
      decide_eq_true_eq, not_and, not_or] at h
    omega

/-- The ordinal of the next day is one more. -/
theorem toRD_succDay (d : Date) (h : d.Valid) :
    (succDay d).toRD = d.toRD + 1 := by
  obtain ⟨h1, h2, h3, h4⟩ := h
  unfold succDay Date.toRD
  split_ifs with hd hm
  · simp; omega
  · have := daysBeforeMonth_succ d.year d.month h1 (by omega)
    simp; omega
  · have hm12 : d.month = 12 := by omega
    have hday : d.day = 31 := by
      have : daysInMonth d.year d.month = 31 := by
        unfold daysInMonth; rw [hm12]; norm_num
      omega
    have hy := daysBeforeYear_succ d.year
    have hdbm12 : daysBeforeMonth d.year 12 = 334 +
        (if isLeapYear d.year then 1 else 0) := by
      unfold daysBeforeMonth; norm_num
    have hdbm1 : ∀ z, daysBeforeMonth z 1 = 0 := by
      intro z; unfold daysBeforeMonth; norm_num
    simp only [hm12] at *
    rw [hdbm1, hdbm12] at *
    split_ifs at hy ⊢ <;> omega

theorem succDay_valid (d : Date) (h : d.Valid) : (succDay d).Valid := by
  obtain ⟨h1, h2, h3, h4⟩ := h
  unfold succDay
  have hp1 := daysInMonth_pos d.year (d.month + 1)
  have hp2 := daysInMonth_pos (d.year + 1) 1
  split_ifs with hd hm <;>
    refine ⟨?_, ?_, ?_, ?_⟩ <;> dsimp only [Date.Valid] <;> omega

theorem addDays_valid (d : Date) (n : Nat) (h : d.Valid) :
    (d.addDays n).Valid := by
  unfold Date.addDays
  induction n with
  | zero => exact h
  | succ k ih =>
      rw [Function.iterate_succ_apply']
      exact succDay_valid _ ih

theorem toRD_addDays (d : Date) (n : Nat) (h : d.Valid) :
    (d.addDays n).toRD = d.toRD + n := by
  unfold Date.addDays
  induction n with
  | zero => simp
  | succ k ih =>
      have hv : (succDay^[k] d).Valid := addDays_valid d k h
      rw [Function.iterate_succ_apply', toRD_succDay _ hv]
      push_cast
      omega

theorem addDays_addDays (d : Date) (a b : Nat) :
    (d.addDays a).addDays b = d.addDays (a + b) := by
  unfold Date.addDays
  rw [Nat.add_comm a b, Function.iterate_add_apply]

theorem daysBeforeMonth_nonneg (y m : Int) : 0 ≤ daysBeforeMonth y m := by
  unfold daysBeforeMonth
  omega

/-- Induction upward from an integer base point. -/
theorem int_induction_from {P : Int → Prop} (a : Int) (h0 : P a)
    (hs : ∀ n, a ≤ n → P n → P (n + 1)) (n : Int) (hn : a ≤ n) : P n := by
  obtain ⟨k, hk⟩ : ∃ k : ℕ, n = a + k := ⟨(n - a).toNat, by omega⟩
  subst hk
  clear hn
  induction k with
  | zero => simpa using h0
  | succ j ih =>
      have h2 := hs (a + j) (by omega) ih
      have heq : a + ((j : ℤ) + 1) = a + j + 1 := by ring
      rw [Nat.cast_succ, heq]
      exact h2

theorem daysBeforeMonth_le_of_lt (y m1 m2 : Int) (h1 : 1 ≤ m1)
    (h : m1 < m2) (h2 : m2 ≤ 12) :
    daysBeforeMonth y m1 + daysInMonth y m1 ≤ daysBeforeMonth y m2 := by
  have hbase := (daysBeforeMonth_succ y m1 h1 (by omega)).symm
  have key : ∀ n : ℤ, m1 + 1 ≤ n → n ≤ 12 →
      daysBeforeMonth y m1 + daysInMonth y m1 ≤ daysBeforeMonth y n := by
    intro n hn
    refine int_induction_from (P := fun n => n ≤ 12 →
      daysBeforeMonth y m1 + daysInMonth y m1 ≤ daysBeforeMonth y n)
      (m1 + 1) (fun _ => by omega) ?_ n hn
    intro n hmn ih hn12
    have hd := daysBeforeMonth_succ y n (by omega) (by omega)
    have hp := daysInMonth_pos y n
    have := ih (by omega)
    omega
  exact key m2 (by omega) h2

theorem daysBeforeMonth_twelve (y : Int) :
    daysBeforeMonth y 12 = 334 + (if isLeapYear y then 1 else 0) := by
  unfold daysBeforeMonth
  norm_num

theorem daysBeforeMonth_add_dim_le (y m : Int) (h1 : 1 ≤ m) (h2 : m ≤ 12) :
    daysBeforeMonth y m + daysInMonth y m ≤
      365 + (if isLeapYear y then 1 else 0) := by
  have h12 := daysBeforeMonth_twelve y
  rcases eq_or_lt_of_le h2 with he | hl
  · have hdim : daysInMonth y 12 = 31 := by unfold daysInMonth; norm_num
    rw [he, h12, hdim]
    split_ifs <;> omega
  · have := daysBeforeMonth_le_of_lt y m 12 h1 hl (by omega)
    split_ifs at h12 ⊢ <;> omega

theorem daysBeforeYear_mono (y1 y2 : Int) (h : y1 ≤ y2) :
    daysBeforeYear y1 ≤ daysBeforeYear y2 := by
  refine int_induction_from (P := fun n => daysBeforeYear y1 ≤ daysBeforeYear n)
    y1 (le_refl _) ?_ y2 h
  intro n _ ih
  have := daysBeforeYear_succ n
  split_ifs at this <;> omega

/-- For a valid date, the within-year part of the ordinal is bounded by
the year length. -/
theorem within_year_bound (d : Date) (h : d.Valid) :
    1 ≤ daysBeforeMonth d.year d.month + d.day ∧
      daysBeforeMonth d.year d.month + d.day ≤
        365 + (if isLeapYear d.year then 1 else 0) := by
  obtain ⟨h1, h2, h3, h4⟩ := h
  have hb := daysBeforeMonth_add_dim_le d.year d.month h1 h2
  have hn := daysBeforeMonth_nonneg d.year d.month
  split_ifs at hb ⊢ <;> constructor <;> omega

theorem toRD_lt_of_year_lt (a b : Date) (ha : a.Valid) (hb : b.Valid)
    (h : a.year < b.year) : a.toRD < b.toRD := by
  have hub := (within_year_bound a ha).2
  have hlb := (within_year_bound b hb).1
  have hsucc := daysBeforeYear_succ a.year
  have hmono := daysBeforeYear_mono (a.year + 1) b.year (by omega)
  unfold Date.toRD
  split_ifs at hub hsucc <;> omega

theorem toRD_lt_of_month_lt (a b : Date) (ha : a.Valid) (hb : b.Valid)
    (hy : a.year = b.year) (h : a.month < b.month) : a.toRD < b.toRD := by
  obtain ⟨a1, a2, a3, a4⟩ := ha
  obtain ⟨b1, b2, b3, b4⟩ := hb
  have hl := daysBeforeMonth_le_of_lt a.year a.month b.month a1 h b2
  unfold Date.toRD
  rw [← hy] at *
  omega

/-- Month index `12*year + month` dominates the ordinal comparison. -/
theorem toRD_lt_of_monthIndex_lt (a b : Date) (ha : a.Valid) (hb : b.Valid)
    (h : 12 * a.year + a.month < 12 * b.year + b.month) :
    a.toRD < b.toRD := by
  have ha2 := ha
  have hb2 := hb
  obtain ⟨a1, a2, _, _⟩ := ha2
  obtain ⟨b1, b2, _, _⟩ := hb2
  rcases lt_trichotomy a.year b.year with hy | hy | hy
  · exact toRD_lt_of_year_lt a b ha hb hy
  · exact toRD_lt_of_month_lt a b ha hb hy (by omega)
  · omega

theorem toRD_le_same_month (a b : Date) (hy : a.year = b.year)
    (hm : a.month = b.month) (hd : a.day ≤ b.day) : a.toRD ≤ b.toRD := by
  unfold Date.toRD
  rw [hy, hm]
  omega

theorem increment_monthly_monthIndex (d : Date) (n : Int) :
    12 * (increment_monthly d n).year + (increment_monthly d n).month =
      12 * d.year + d.month + n := by
  unfold increment_monthly
  dsimp only
  omega

theorem increment_monthly_day (d : Date) (n : Int) :
    (increment_monthly d n).day =
      min d.day
        (daysInMonth (increment_monthly d n).year
          (increment_monthly d n).month) := rfl

theorem increment_monthly_valid (d : Date) (n : Int) (h : d.Valid) :
    (increment_monthly d n).Valid := by
  obtain ⟨h1, h2, h3, h4⟩ := h
  unfold increment_monthly
  have := daysInMonth_pos (d.year + (d.month - 1 + n) / 12)
    ((d.month - 1 + n) % 12 + 1)
  refine ⟨?_, ?_, ?_, ?_⟩ <;> dsimp only <;> omega

theorem increment_monthly_toRD_lt (d : Date) (n : Int) (h : d.Valid)
    (hn : 1 ≤ n) : d.toRD < (increment_monthly d n).toRD := by
  apply toRD_lt_of_monthIndex_lt d _ h (increment_monthly_valid d n h)
  rw [increment_monthly_monthIndex]
  omega

theorem daysInMonth_eq_of_ne_two (y1 y2 m : Int) (h : m ≠ 2) :
    daysInMonth y1 m = daysInMonth y2 m := by
  unfold daysInMonth
  simp [h]

/-- Iterating a fixed-size day step is a single larger day step. -/
theorem iterate_addDays (d : Date) (a n : Nat) :
    (fun x : Date => x.addDays a)^[n] d = d.addDays (n * a) := by
  induction n with
  | zero => simp [Date.addDays]
  | succ j ih =>
      rw [Function.iterate_succ_apply', ih, addDays_addDays]
      ring_nf

/-- C2 (amended): additivity holds for the day-based frequencies, and
every frequency satisfies the single-jump equivalence
`increment(d, f, i, k) = increment(d, f, i*k, 1)`. -/
theorem increment_date_additivity (d : Date) (i k : Int)
    (hi : 1 ≤ i) (hk : 1 ≤ k) :
    (∀ f : Frequency, increment_date d (some f) i k =
        increment_date d (some f) (i * k) 1) ∧
    increment_date d (some .daily) i k =
      .ok ((fun x : Date => x.addDays i.toNat)^[k.toNat] d) ∧
    increment_date d (some .weekly) i k =
      .ok ((fun x : Date => x.addDays (7 * i).toNat)^[k.toNat] d) ∧
    (∀ x : Date, increment_date x (some .daily) i 1 = .ok (x.addDays i.toNat)) ∧
    (∀ x : Date, increment_date x (some .weekly) i 1 =
      .ok (x.addDays (7 * i).toNat)) := by
  have hik : 1 ≤ i * k := one_le_mul_of_one_le_of_one_le hi hk
  have hmul : (i * k).toNat = k.toNat * i.toNat := by
    lift i to ℕ using (by omega) with a
    lift k to ℕ using (by omega) with b
    rw [← Nat.cast_mul, Int.toNat_natCast, Int.toNat_natCast,
      Int.toNat_natCast, Nat.mul_comm]
  have hmul7 : (7 * (i * k)).toNat = k.toNat * (7 * i).toNat := by
    lift i to ℕ using (by omega) with a
    lift k to ℕ using (by omega) with b
    rw [show ((7 : ℤ) * (a * b)) = ((7 * a * b : ℕ) : ℤ) by push_cast; ring,
      show ((7 : ℤ) * a) = ((7 * a : ℕ) : ℤ) by push_cast; ring,
      Int.toNat_natCast, Int.toNat_natCast, Int.toNat_natCast]
    ring
  refine ⟨?_, ?_, ?_, ?_, ?_⟩
  · intro f
    unfold increment_date
    rw [if_neg (by omega), if_neg (by omega), if_neg (by omega),
      if_neg (by omega)]
    cases f <;> simp [mul_one]
  · unfold increment_date
    rw [if_neg (by omega), if_neg (by omega)]
    dsimp only
    rw [iterate_addDays, hmul]
  · unfold increment_date
    rw [if_neg (by omega), if_neg (by omega)]
    dsimp only
    rw [iterate_addDays, hmul7]
  · intro x
    unfold increment_date
    rw [if_neg (by omega), if_neg (by omega)]
    simp [mul_one]
  · intro x
    unfold increment_date
    rw [if_neg (by omega), if_neg (by omega)]
    simp [mul_one]

/-- C2 counterexample: for the monthly frequency a call with
`repetitions=2` is a single 2-month jump that clamps once (Jan 31 →
Mar 31), whereas two sequential 1-month calls clamp twice
(Jan 31 → Feb 29 → Mar 29). -/
theorem increment_date_not_additive_monthly :
    increment_date ⟨2024, 1, 31⟩ (some .monthly) 1 2 = .ok ⟨2024, 3, 31⟩ ∧
    increment_date ⟨2024, 1, 31⟩ (some .monthly) 1 1 = .ok ⟨2024, 2, 29⟩ ∧
    increment_date ⟨2024, 2, 29⟩ (some .monthly) 1 1 = .ok ⟨2024, 3, 29⟩ ∧
    (⟨2024, 3, 31⟩ : Date) ≠ ⟨2024, 3, 29⟩ := by
  refine ⟨?_, ?_, ?_, by decide⟩ <;> rfl

/-- C6: month-based increments advance the month index by the effective
step count and clamp the day to the target month's last valid day
(never overflowing), and the annual increment keeps month and day
except that Feb 29 falls back to Feb 28 in a non-leap target year. -/
theorem increment_date_month_annual_clamping (d : Date) (i k : Int)
    (hd : d.Valid) (hi : 1 ≤ i) (hk : 1 ≤ k) :
    (∃ r, increment_date d (some .monthly) i k = .ok r ∧
      12 * r.year + r.month = 12 * d.year + d.month + i * k ∧
      r.day = min d.day (daysInMonth r.year r.month) ∧ r.Valid) ∧
    (∃ r, increment_date d (some .quarterly) i k = .ok r ∧
      12 * r.year + r.month = 12 * d.year + d.month + 3 * (i * k) ∧
      r.day = min d.day (daysInMonth r.year r.month) ∧ r.Valid) ∧
    (∃ r, increment_date d (some .annual) i k = .ok r ∧
      r.year = d.year + i * k ∧ r.month = d.month ∧ r.Valid ∧
      (r.day = d.day ∨
        (d.month = 2 ∧ d.day = 29 ∧ isLeapYear r.year = false ∧
          r.day = 28))) := by
  obtain ⟨h1, h2, h3, h4⟩ := hd
  have hik : 1 ≤ i * k := one_le_mul_of_one_le_of_one_le hi hk
  refine ⟨?_, ?_, ?_⟩
  · refine ⟨increment_monthly d (i * k), ?_, ?_, rfl,
      increment_monthly_valid d (i * k) ⟨h1, h2, h3, h4⟩⟩
    · unfold increment_date
      rw [if_neg (by omega), if_neg (by omega)]
    · exact increment_monthly_monthIndex d (i * k)
  · refine ⟨increment_monthly d (3 * (i * k)), ?_, ?_, rfl,
      increment_monthly_valid d (3 * (i * k)) ⟨h1, h2, h3, h4⟩⟩
    · unfold increment_date
      rw [if_neg (by omega), if_neg (by omega)]
    · exact increment_monthly_monthIndex d (3 * (i * k))
  · unfold increment_date
    rw [if_neg (by omega), if_neg (by omega)]
    dsimp only
    split_ifs with hday
    · exact ⟨⟨d.year + i * k, d.month, d.day⟩, rfl, rfl, rfl,
        ⟨h1, h2, h3, hday⟩, Or.inl rfl⟩
    · refine ⟨⟨d.year + i * k, d.month, 28⟩, rfl, rfl, rfl,
        ⟨h1, h2, (by norm_num : (1 : ℤ) ≤ 28), daysInMonth_pos _ _⟩,
        Or.inr ?_⟩
      by_cases hm : d.month = 2
      · have hle : daysInMonth d.year d.month ≤ 29 := by
          rw [hm]
          unfold daysInMonth
          split_ifs <;> omega
        have hge : 28 ≤ daysInMonth (d.year + i * k) d.month :=
          daysInMonth_pos _ _
        have h29 : d.day = 29 := by omega
        have hnl : isLeapYear (d.year + i * k) = false := by
          by_contra hL
          have hL2 : isLeapYear (d.year + i * k) = true := by
            revert hL
            cases isLeapYear (d.year + i * k) <;> simp
          have : daysInMonth (d.year + i * k) d.month = 29 := by
            rw [hm]
            unfold daysInMonth
            rw [if_pos rfl, if_pos hL2]
          omega
        exact ⟨hm, h29, hnl, rfl⟩
      · exact absurd (daysInMonth_eq_of_ne_two d.year (d.year + i * k)
          d.month hm) (by omega)

/-- Witness for C2 (amended) at a concrete date. -/
theorem increment_date_additivity_witness :
    (1 : Int) ≤ 1 ∧ (1 : Int) ≤ 3 ∧
    increment_date ⟨2025, 1, 10⟩ (some .daily) 1 3 =
      .ok ((fun x : Date => x.addDays (1 : Int).toNat)^[(3 : Int).toNat]
        ⟨2025, 1, 10⟩) :=
  ⟨by decide, by decide,
    (increment_date_additivity ⟨2025, 1, 10⟩ 1 3 (by decide)
      (by decide)).2.1⟩

/-- Witness for C6 at a concrete date. -/
theorem increment_date_month_annual_clamping_witness :
    (⟨2024, 1, 31⟩ : Date).Valid ∧
    (∃ r, increment_date ⟨2024, 1, 31⟩ (some .monthly) 1 1 = .ok r ∧
      12 * r.year + r.month = 12 * 2024 + 1 + 1 * 1 ∧
      r.day = min 31 (daysInMonth r.year r.month) ∧ r.Valid) :=
  ⟨by decide,
    (increment_date_month_annual_clamping ⟨2024, 1, 31⟩ 1 1 (by decide)
      (by decide) (by decide)).1⟩

theorem increment_date_eq_pureStep (x : Date) (f : Frequency) (i n : Int)
    (hi : 1 ≤ i) (hn : 1 ≤ n) :
    increment_date x (some f) i n = .ok (pureStep f (i * n) x) := by
  unfold increment_date pureStep
  rw [if_neg (by omega), if_neg (by omega)]
  cases f <;> first
    | rfl
    | (dsimp only; split_ifs <;> rfl)

theorem increment_date_one_eq_pureStep (x : Date) (f : Frequency) (i : Int)
    (hi : 1 ≤ i) :
    increment_date x (some f) i 1 = .ok (pureStep f i x) := by
  rw [increment_date_eq_pureStep x f i 1 hi (by omega), mul_one]

theorem pureStep_valid (f : Frequency) (n : Int) (x : Date) (hx : x.Valid)
    (_hn : 1 ≤ n) : (pureStep f n x).Valid := by
  obtain ⟨h1, h2, h3, h4⟩ := hx
  cases f with
  | daily => exact addDays_valid x _ ⟨h1, h2, h3, h4⟩
  | weekly => exact addDays_valid x _ ⟨h1, h2, h3, h4⟩
  | monthly => exact increment_monthly_valid x n ⟨h1, h2, h3, h4⟩
  | quarterly => exact increment_monthly_valid x (3 * n) ⟨h1, h2, h3, h4⟩
  | annual =>
      unfold pureStep
      split_ifs with hday
      · exact ⟨h1, h2, h3, hday⟩
      · exact ⟨h1, h2, (by norm_num : (1 : ℤ) ≤ 28), daysInMonth_pos _ _⟩

theorem pureStep_toRD_lt (f : Frequency) (n : Int) (x : Date) (hx : x.Valid)
    (hn : 1 ≤ n) : x.toRD + 1 ≤ (pureStep f n x).toRD := by
  have hx2 := hx
  obtain ⟨h1, h2, h3, h4⟩ := hx2
  cases f with
  | daily =>
      have := toRD_addDays x n.toNat hx
      simp only [pureStep]
      omega
  | weekly =>
      have := toRD_addDays x (7 * n).toNat hx
      simp only [pureStep]
      omega
  | monthly =>
      have := increment_monthly_toRD_lt x n hx hn
      simp only [pureStep]
      omega
  | quarterly =>
      have := increment_monthly_toRD_lt x (3 * n) hx (by omega)
      simp only [pureStep]
      omega
  | annual =>
      have hv := pureStep_valid .annual n x hx hn
      have hy : (pureStep .annual n x).year = x.year + n := by
        unfold pureStep
        split_ifs <;> rfl
      have := toRD_lt_of_year_lt x (pureStep .annual n x) hx hv (by omega)
      omega

/-- Validity and minimal growth along the orbit of a pure step. -/
theorem orbit_valid_growth (stepF : Date → Date)
    (hstep : ∀ x : Date, x.Valid → (stepF x).Valid ∧ x.toRD + 1 ≤ (stepF x).toRD)
    (d : Date) (hd : d.Valid) (j : Nat) :
    (stepF^[j] d).Valid ∧ d.toRD + j ≤ (stepF^[j] d).toRD := by
  induction j with
  | zero => simpa using hd
  | succ t ih =>
      obtain ⟨hv, hg⟩ := ih
      have := hstep _ hv
      rw [Function.iterate_succ_apply']
      constructor
      · exact this.1
      · push_cast
        omega

theorem orbit_strictMono (stepF : Date → Date)
    (hstep : ∀ x : Date, x.Valid → (stepF x).Valid ∧ x.toRD + 1 ≤ (stepF x).toRD)
    (d : Date) (hd : d.Valid) (a b : Nat) (hab : a < b) :
    (stepF^[a] d).toRD < (stepF^[b] d).toRD := by
  obtain ⟨hva, _⟩ := orbit_valid_growth stepF hstep d hd a
  obtain ⟨k, rfl⟩ : ∃ k : Nat, b = a + (k + 1) := ⟨b - a - 1, by omega⟩
  rw [Nat.add_comm a (k + 1), Function.iterate_add_apply]
  have := orbit_valid_growth stepF hstep (stepF^[a] d) hva (k + 1)
  omega

/-- A sufficiently fueled `stepWhile` halts on the first orbit element
falsifying `pred`. -/
theorem stepWhile_spec (step : Date → Except Err Date)
    (stepF : Date → Date) (pred : Date → Bool)
    (hagree : ∀ x : Date, x.Valid → step x = .ok (stepF x))
    (hstep : ∀ x : Date, x.Valid → (stepF x).Valid ∧ x.toRD + 1 ≤ (stepF x).toRD) :
    ∀ fuel d, d.Valid → (∃ J, J < fuel ∧ pred (stepF^[J] d) = false) →
      ∃ j, stepWhile step pred fuel d = .ok (stepF^[j] d) ∧
        pred (stepF^[j] d) = false ∧ ∀ t, t < j → pred (stepF^[t] d) = true := by
  intro fuel
  induction fuel with
  | zero => intro d _ ⟨J, hJ, _⟩; omega
  | succ m ih =>
      intro d hd ⟨J, hJ, hJf⟩
      by_cases hp : pred d = true
      · have hJ0 : J ≠ 0 := by
          intro h
          rw [h] at hJf
          simp at hJf
          exact absurd hp (by simp [hJf])
        obtain ⟨J2, rfl⟩ : ∃ J2, J = J2 + 1 := ⟨J - 1, by omega⟩
        have hrec := ih (stepF d) (hstep d hd).1
          ⟨J2, by omega, by rwa [← Function.iterate_succ_apply]⟩
        obtain ⟨j, hok, hfalse, hmin⟩ := hrec
        refine ⟨j + 1, ?_, ?_, ?_⟩
        · unfold stepWhile
          rw [if_pos hp, hagree d hd]
          rw [Function.iterate_succ_apply]
          exact hok
        · rwa [Function.iterate_succ_apply]
        · intro t ht
          match t with
          | 0 => simpa using hp
          | t' + 1 =>
              rw [Function.iterate_succ_apply]
              exact hmin t' (by omega)
      · refine ⟨0, ?_, by simpa using hp, by omega⟩
        unfold stepWhile
        rw [if_neg hp]
        rfl

/-- Sufficiently fueled `collectWhile` returns exactly the orbit prefix
at or below the bound. -/
theorem collectWhile_spec (step : Date → Except Err Date)
    (stepF : Date → Date) (endRD : Int)
    (hagree : ∀ x : Date, x.Valid → step x = .ok (stepF x))
    (hstep : ∀ x : Date, x.Valid →
      (stepF x).Valid ∧ x.toRD + 1 ≤ (stepF x).toRD) :
    ∀ fuel d, d.Valid → (∃ J, J < fuel ∧ endRD < (stepF^[J] d).toRD) →
      ∃ N, collectWhile step endRD fuel d =
          .ok ((List.range N).map (fun t => stepF^[t] d)) ∧
        (∀ t, t < N → (stepF^[t] d).toRD ≤ endRD) ∧
        endRD < (stepF^[N] d).toRD := by
  intro fuel
  induction fuel with
  | zero => intro d _ ⟨J, hJ, _⟩; omega
  | succ m ih =>
      intro d hd ⟨J, hJ, hJf⟩
      by_cases hcur : d.toRD ≤ endRD
      · have hJ0 : J ≠ 0 := by
          intro h
          rw [h] at hJf
          simp at hJf
          omega
        obtain ⟨J2, rfl⟩ : ∃ J2, J = J2 + 1 := ⟨J - 1, by omega⟩
        have hrec := ih (stepF d) (hstep d hd).1
          ⟨J2, by omega, by rwa [← Function.iterate_succ_apply]⟩
        obtain ⟨N, hok, hb, ht⟩ := hrec
        refine ⟨N + 1, ?_, ?_, ?_⟩
        · have hlist : (List.range (N + 1)).map (fun t => stepF^[t] d) =
              d :: (List.range N).map (fun t => stepF^[t] (stepF d)) := by
            rw [List.range_succ_eq_map]
            simp only [List.map_cons, List.map_map,
              Function.iterate_zero_apply]
            refine congrArg (d :: ·) (List.map_congr_left ?_)
            intro t _
            simp only [Function.comp_apply]
            exact Function.iterate_succ_apply stepF t d
          unfold collectWhile
          rw [if_pos hcur, hagree d hd]
          dsimp only
          rw [hok, hlist]
        · intro t ht2
          match t with
          | 0 => simpa using hcur
          | t' + 1 =>
              rw [Function.iterate_succ_apply]
              exact hb t' (by omega)
        · rw [Function.iterate_succ_apply]
          exact ht
      · refine ⟨0, ?_, by omega, by simpa using hcur⟩
        unfold collectWhile
        rw [if_neg hcur]
        rfl

/-- Sufficiently fueled `countWhile` counts exactly the orbit prefix at
or below the bound. -/
theorem countWhile_spec (step : Date → Except Err Date)
    (stepF : Date → Date) (endRD : Int)
    (hagree : ∀ x : Date, x.Valid → step x = .ok (stepF x))
    (hstep : ∀ x : Date, x.Valid →
      (stepF x).Valid ∧ x.toRD + 1 ≤ (stepF x).toRD) :
    ∀ fuel N d, d.Valid → N < fuel →
      (∀ t, t < N → (stepF^[t] d).toRD ≤ endRD) →
      endRD < (stepF^[N] d).toRD →
      countWhile step endRD fuel d = .ok N := by
  intro fuel
  induction fuel with
  | zero => intro N d _ h _ _; omega
  | succ m ih =>
      intro N d hd hNf hb ht
      match N with
      | 0 =>
          unfold countWhile
          rw [if_neg (by simpa using ht)]
      | N' + 1 =>
          have hcur : d.toRD ≤ endRD := by simpa using hb 0 (by omega)
          unfold countWhile
          rw [if_pos hcur, hagree d hd]
          have hrec := ih N' (stepF d) (hstep d hd).1 (by omega)
            (fun t ht2 => by
              rw [← Function.iterate_succ_apply]
              exact hb (t + 1) (by omega))
            (by rwa [← Function.iterate_succ_apply])
          dsimp only
          rw [hrec]

/-- One schedule step either fails with a non-fuel error (non-positive
interval, missing frequency) or advances to a valid, strictly later
date. -/
theorem inc_step_total (frequency : Option Frequency)
    (interval : Int) (x : Date) (hx : x.Valid) :
    (∃ e, increment_date x frequency interval 1 = .error e ∧
      e ≠ .fuelExhausted) ∨
    (∃ y, increment_date x frequency interval 1 = .ok y ∧
      y.Valid ∧ x.toRD + 1 ≤ y.toRD) := by
  by_cases hint : interval < 1
  · left
    refine ⟨.valueError "interval must be positive.", ?_, by simp⟩
    unfold increment_date
    rw [if_pos hint]
  · match frequency with
    | none =>
        left
        refine ⟨.unsupportedFrequency, ?_, by simp⟩
        unfold increment_date
        rw [if_neg hint, if_neg (by omega)]
    | some f =>
        right
        refine ⟨pureStep f interval x, ?_, ?_, ?_⟩
        · exact increment_date_one_eq_pureStep x f _ (by omega)
        · exact pureStep_valid f _ x hx (by omega)
        · exact pureStep_toRD_lt f _ x hx (by omega)

theorem bill_step_total (b : Bill) (x : Date) (hx : x.Valid) :
    (∃ e, b.next_due_date x = .error e ∧ e ≠ .fuelExhausted) ∨
    (∃ y, b.next_due_date x = .ok y ∧ y.Valid ∧ x.toRD + 1 ≤ y.toRD) := by
  unfold Bill.next_due_date
  cases hiv : b.interval with
  | none => exact Or.inl ⟨.typeError, rfl, by simp⟩
  | some i => exact inc_step_total b.frequency i x hx

/-- A `stepWhile` loop over a progressing-or-failing step with a
bounded guard never runs out of fuel at the stated fuel level. -/
theorem stepWhile_ne_fuel (step : Date → Except Err Date)
    (pred : Date → Bool) (B : Int)
    (hstep : ∀ x : Date, x.Valid →
      (∃ e, step x = .error e ∧ e ≠ .fuelExhausted) ∨
      (∃ y, step x = .ok y ∧ y.Valid ∧ x.toRD + 1 ≤ y.toRD))
    (hpred : ∀ x : Date, B < x.toRD → pred x = false) :
    ∀ fuel d, d.Valid → (B - d.toRD + 1).toNat + 1 ≤ fuel →
      stepWhile step pred fuel d ≠ .error .fuelExhausted := by
  intro fuel
  induction fuel with
  | zero => intro d _ hb; omega
  | succ m ih =>
      intro d hd hb
      by_cases hp : pred d = true
      · have hdB : d.toRD ≤ B := by
          by_contra hc
          rw [hpred d (by omega)] at hp
          simp at hp
        unfold stepWhile
        rw [if_pos hp]
        rcases hstep d hd with ⟨e, he, hne⟩ | ⟨y, hy, hyv, hyg⟩
        · rw [he]
          intro hcontra
          injection hcontra with h1
          exact hne h1
        · rw [hy]
          exact ih y hyv (by omega)
      · unfold stepWhile
        rw [if_neg hp]
        intro hcontra
        cases hcontra

theorem collectWhile_ne_fuel (step : Date → Except Err Date) (endRD : Int)
    (hstep : ∀ x : Date, x.Valid →
      (∃ e, step x = .error e ∧ e ≠ .fuelExhausted) ∨
      (∃ y, step x = .ok y ∧ y.Valid ∧ x.toRD + 1 ≤ y.toRD)) :
    ∀ fuel d, d.Valid → (endRD - d.toRD + 1).toNat + 1 ≤ fuel →
      collectWhile step endRD fuel d ≠ .error .fuelExhausted := by
  intro fuel
  induction fuel with
  | zero => intro d _ hb; omega
  | succ m ih =>
      intro d hd hb
      by_cases hp : d.toRD ≤ endRD
      · unfold collectWhile
        rw [if_pos hp]
        rcases hstep d hd with ⟨e, he, hne⟩ | ⟨y, hy, hyv, hyg⟩
        · rw [he]
          intro hcontra
          injection hcontra with h1
          exact hne h1
        · rw [hy]
          dsimp only
          have hrec := ih y hyv (by omega)
          intro hcontra
          revert hcontra
          match hcw : collectWhile step endRD m y with
          | .error e2 =>
              intro hcontra
              injection hcontra with h1
              exact hrec (by rw [hcw, h1])
          | .ok rest => intro hcontra; cases hcontra
      · unfold collectWhile
        rw [if_neg hp]
        intro hcontra
        cases hcontra

theorem countWhile_ne_fuel (step : Date → Except Err Date) (endRD : Int)
    (hstep : ∀ x : Date, x.Valid →
      (∃ e, step x = .error e ∧ e ≠ .fuelExhausted) ∨
      (∃ y, step x = .ok y ∧ y.Valid ∧ x.toRD + 1 ≤ y.toRD)) :
    ∀ fuel d, d.Valid → (endRD - d.toRD + 1).toNat + 1 ≤ fuel →
      countWhile step endRD fuel d ≠ .error .fuelExhausted := by
  intro fuel
  induction fuel with
  | zero => intro d _ hb; omega
  | succ m ih =>
      intro d hd hb
      by_cases hp : d.toRD ≤ endRD
      · unfold countWhile
        rw [if_pos hp]
        rcases hstep d hd with ⟨e, he, hne⟩ | ⟨y, hy, hyv, hyg⟩
        · rw [he]
          intro hcontra
          injection hcontra with h1
          exact hne h1
        · rw [hy]
          dsimp only
          have hrec := ih y hyv (by omega)
          intro hcontra
          revert hcontra
          match hcw : countWhile step endRD m y with
          | .error e2 =>
              intro hcontra
              injection hcontra with h1
              exact hrec (by rw [hcw, h1])
          | .ok n => intro hcontra; cases hcontra
      · unfold countWhile
        rw [if_neg hp]
        intro hcontra
        cases hcontra

/-- Whatever `stepWhile` returns successfully falsifies the guard. -/
theorem stepWhile_ok_not_pred (step : Date → Except Err Date)
    (pred : Date → Bool) :
    ∀ fuel d r, stepWhile step pred fuel d = .ok r → pred r = false := by
  intro fuel
  induction fuel with
  | zero =>
      intro d r h
      simp [stepWhile] at h
  | succ m ih =>
      intro d r h
      unfold stepWhile at h
      by_cases hp : pred d = true
      · rw [if_pos hp] at h
        cases hstep : step d with
        | error e => rw [hstep] at h; simp at h
        | ok y => rw [hstep] at h; exact ih y r h
      · rw [if_neg hp] at h
        injection h with h2
        rw [← h2]
        simpa using hp

theorem bill_step_agree (b : Bill) (f : Frequency) (i : Int)
    (hf : b.frequency = some f) (hiv : b.interval = some i) (hi : 1 ≤ i) :
    ∀ x : Date, x.Valid → b.next_due_date x = .ok (pureStep f i x) := by
  intro x _
  unfold Bill.next_due_date
  rw [hf, hiv]
  exact increment_date_one_eq_pureStep x f i hi

theorem pureStep_pkg (f : Frequency) (i : Int) (hi : 1 ≤ i) :
    ∀ x : Date, x.Valid →
      (pureStep f i x).Valid ∧ x.toRD + 1 ≤ (pureStep f i x).toRD :=
  fun x hx => ⟨pureStep_valid f i x hx hi, pureStep_toRD_lt f i x hx hi⟩

/-- Characterisation of the stepping branch of `next_instance` for a
recurring bill: the result's due date is the first element of the due
date orbit satisfying the boundary condition for `inclusive`, or none
when that element lies past the end date. -/
theorem next_instance_recurring_spec (b : Bill) (reference_date : Date)
    (inclusive : Bool) (f : Frequency) (i : Int) (hf : b.frequency = some f)
    (hiv : b.interval = some i) (hi : 1 ≤ i) (hs : b.start_date.Valid)
    (hnotend : afterEndB b.end_date reference_date = false)
    (hge : b.start_date.toRD ≤ reference_date.toRD) :
    ∃ j,
      (∀ t, t < j →
        (if inclusive then
          ((pureStep f i)^[t] b.start_date).toRD < reference_date.toRD
        else
          ((pureStep f i)^[t] b.start_date).toRD ≤ reference_date.toRD)) ∧
      (if inclusive then
        reference_date.toRD ≤ ((pureStep f i)^[j] b.start_date).toRD
      else
        reference_date.toRD < ((pureStep f i)^[j] b.start_date).toRD) ∧
      b.next_instance reference_date inclusive =
        (if afterEndB b.end_date ((pureStep f i)^[j] b.start_date) then
          .ok none
        else
          .ok (some ⟨(pureStep f i)^[j] b.start_date, b.bill_id,
            b.amount_due⟩)) := by
  have hagree := bill_step_agree b f i hf hiv hi
  have hpkg := pureStep_pkg f i hi
  have hterm : ∃ J,
      J < (reference_date.toRD - b.start_date.toRD).toNat + 2 ∧
      (if inclusive then
        decide (((pureStep f i)^[J] b.start_date).toRD <
          reference_date.toRD)
      else
        decide (((pureStep f i)^[J] b.start_date).toRD ≤
          reference_date.toRD)) = false := by
    refine ⟨(reference_date.toRD - b.start_date.toRD).toNat + 1,
      by omega, ?_⟩
    have hg := orbit_valid_growth (pureStep f i) hpkg b.start_date hs
      ((reference_date.toRD - b.start_date.toRD).toNat + 1)
    split_ifs <;>
      simp only [decide_eq_false_iff_not, not_lt, not_le] <;> omega
  obtain ⟨j, hok, hfalse, hmin⟩ := stepWhile_spec b.next_due_date
    (pureStep f i)
    (fun cur : Date =>
      if inclusive then decide (cur.toRD < reference_date.toRD)
      else decide (cur.toRD ≤ reference_date.toRD))
    hagree hpkg ((reference_date.toRD - b.start_date.toRD).toNat + 2)
    b.start_date hs hterm
  refine ⟨j, ?_, ?_, ?_⟩
  · intro t ht
    have := hmin t ht
    cases inclusive <;> simp at this <;> simp <;> omega
  · cases inclusive <;> simp at hfalse <;> simp <;> omega
  · unfold Bill.next_instance
    rw [if_neg (by simp [hnotend]), if_neg (by omega)]
    dsimp only
    rw [hok]

/-- A successful non-inclusive lookup returns a due date strictly after
the reference date (the scheduler calls it this way). -/
theorem next_instance_due_gt (b : Bill) (reference_date : Date)
    (inst : BillInstance)
    (h : b.next_instance reference_date false = .ok (some inst)) :
    reference_date.toRD < inst.due_date.toRD := by
  unfold Bill.next_instance at h
  by_cases h1 : afterEndB b.end_date reference_date = true
  · rw [if_pos h1] at h
    simp at h
  · rw [if_neg h1] at h
    by_cases h2 : reference_date.toRD < b.start_date.toRD
    · rw [if_pos h2] at h
      simp only [Except.ok.injEq, Option.some.injEq] at h
      rw [← h]
      exact h2
    · rw [if_neg h2] at h
      dsimp only at h
      revert h
      match hsw : stepWhile b.next_due_date
          (fun cur => if false then
            decide (cur.toRD < reference_date.toRD)
          else decide (cur.toRD ≤ reference_date.toRD))
          ((reference_date.toRD - b.start_date.toRD).toNat + 2)
          b.start_date with
      | .error e => intro h; simp at h
      | .ok current =>
          intro h
          dsimp only at h
          have hnp := stepWhile_ok_not_pred _ _ _ _ _ hsw
          simp only [Bool.false_eq_true, if_false,
            decide_eq_false_iff_not, not_le] at hnp
          by_cases h3 : afterEndB b.end_date current = true
          · rw [if_pos h3] at h
            simp at h
          · rw [if_neg h3] at h
            simp only [Except.ok.injEq, Option.some.injEq] at h
            rw [← h]
            exact hnp

/-- C3 (amended): `next_instance` returns none past the end date,
returns the first occurrence before the start date, and otherwise, for
a recurring obligation, walks the due-date orbit to the first date
satisfying the `inclusive` boundary condition (none if it passes the
end date).  For a non-recurring obligation with the reference date at
the (start = end = due) date, the inclusive lookup returns that
occurrence, while a lookup that must step (notably the non-inclusive
lookup at the due date) fails instead of returning none: the
standardised obligation has no interval or frequency to step with, and
its `None` interval crashes `increment_date`'s `interval < 1` guard
with a `TypeError`. -/
theorem next_occurrence_state_machine (b : Bill) (reference_date : Date)
    (inclusive : Bool) :
    (∀ e, b.end_date = some e → e.toRD < reference_date.toRD →
      b.next_instance reference_date inclusive = .ok none) ∧
    (afterEndB b.end_date reference_date = false →
      reference_date.toRD < b.start_date.toRD →
      b.next_instance reference_date inclusive =
        .ok (some ⟨b.start_date, b.bill_id, b.amount_due⟩)) ∧
    (∀ f i, b.frequency = some f → b.interval = some i → 1 ≤ i →
      b.start_date.Valid →
      afterEndB b.end_date reference_date = false →
      b.start_date.toRD ≤ reference_date.toRD →
      ∃ j,
        (∀ t, t < j →
          (if inclusive then
            ((pureStep f i)^[t] b.start_date).toRD < reference_date.toRD
          else
            ((pureStep f i)^[t] b.start_date).toRD ≤ reference_date.toRD)) ∧
        (if inclusive then
          reference_date.toRD ≤ ((pureStep f i)^[j] b.start_date).toRD
        else
          reference_date.toRD < ((pureStep f i)^[j] b.start_date).toRD) ∧
        b.next_instance reference_date inclusive =
          (if afterEndB b.end_date ((pureStep f i)^[j] b.start_date) then
            .ok none
          else
            .ok (some ⟨(pureStep f i)^[j] b.start_date, b.bill_id,
              b.amount_due⟩))) ∧
    (afterEndB b.end_date reference_date = false →
      reference_date.toRD = b.start_date.toRD → inclusive = true →
      b.next_instance reference_date inclusive =
        .ok (some ⟨b.start_date, b.bill_id, b.amount_due⟩)) ∧
    (b.frequency = none →
      afterEndB b.end_date reference_date = false →
      (if inclusive then b.start_date.toRD < reference_date.toRD
        else b.start_date.toRD ≤ reference_date.toRD) →
      ∃ e, b.next_instance reference_date inclusive = .error e) := by
  refine ⟨?_, ?_, ?_, ?_, ?_⟩
  · intro e he hlt
    unfold Bill.next_instance
    rw [if_pos (by simp [afterEndB, he, hlt])]
  · intro hne hlt
    unfold Bill.next_instance
    rw [if_neg (by simp [hne]), if_pos hlt]
  · intro f i hf hiv hi hs hne hge
    exact next_instance_recurring_spec b reference_date inclusive f i hf
      hiv hi hs hne hge
  · intro hne heq hincl
    subst hincl
    unfold Bill.next_instance
    rw [if_neg (by simp [hne]), if_neg (by omega)]
    dsimp only
    unfold stepWhile
    rw [if_neg (by simp; omega)]
    have hend : afterEndB b.end_date b.start_date = false := by
      unfold afterEndB at hne ⊢
      match hE : b.end_date with
      | none => rfl
      | some e =>
          rw [hE] at hne
          simp only [decide_eq_false_iff_not, not_lt] at hne ⊢
          omega
    show (if afterEndB b.end_date b.start_date then
        (.ok none : Except Err (Option BillInstance))
      else .ok (some ⟨b.start_date, b.bill_id, b.amount_due⟩)) =
      .ok (some ⟨b.start_date, b.bill_id, b.amount_due⟩)
    rw [hend]
    simp
  · intro hf hne hbound
    unfold Bill.next_instance
    rw [if_neg (by simp [hne]),
      if_neg (by split_ifs at hbound <;> omega)]
    dsimp only
    have hpred : (if inclusive then
        decide (b.start_date.toRD < reference_date.toRD)
      else decide (b.start_date.toRD ≤ reference_date.toRD)) = true := by
      split_ifs at hbound ⊢ <;> simpa using hbound
    have hstep : ∃ e2, b.next_due_date b.start_date = .error e2 := by
      unfold Bill.next_due_date
      cases hivB : b.interval with
      | none => exact ⟨.typeError, rfl⟩
      | some i =>
          dsimp only
          unfold increment_date
          by_cases hint : i < 1
          · exact ⟨_, by rw [if_pos hint]⟩
          · rw [if_neg hint, if_neg (by omega), hf]
            exact ⟨.unsupportedFrequency, rfl⟩
    obtain ⟨e2, he2⟩ := hstep
    refine ⟨e2, ?_⟩
    unfold stepWhile
    rw [if_pos hpred, he2]

/-- C3 counterexample: for a non-recurring obligation the non-inclusive
lookup at the due date crashes instead of returning none or an
occurrence — the stepping loop passes the obligation's `None` interval
to `increment_date`, whose `interval < 1` comparison raises a
`TypeError` (`None < 1`) before any explicit branch. -/
theorem next_occurrence_non_recurring_crash :
    Bill.make "tax" 100 false (some ⟨2025, 4, 15⟩) none none none none
      none =
      .ok ⟨"tax", 100, false, ⟨2025, 4, 15⟩, some ⟨2025, 4, 15⟩, none,
        none, some 1⟩ ∧
    (Bill.mk "tax" 100 false ⟨2025, 4, 15⟩ (some ⟨2025, 4, 15⟩) none none
      (some 1)).next_instance ⟨2025, 4, 15⟩ false =
      .error .typeError :=
  ⟨rfl, rfl⟩

/-- Witness for C3 at a concrete recurring bill whose end date has
passed. -/
theorem next_occurrence_state_machine_witness :
    (Bill.mk "rent" 1200 true ⟨2025, 1, 1⟩ (some ⟨2025, 2, 1⟩)
      (some .monthly) (some 1) (some 2)).next_instance ⟨2025, 3, 1⟩
      true = .ok none :=
  (next_occurrence_state_machine _ ⟨2025, 3, 1⟩ true).1 ⟨2025, 2, 1⟩ rfl
    (by decide)

/-- C10: for every supported frequency, positive interval and positive
repetition count, `increment_date` succeeds with a strictly later valid
date; consequently the stepping loops of `next_instance`,
`instances_in_range` and `_calculate_occurrences_in_range` never
exhaust their fuel (the loops terminate). -/
theorem increment_strictly_increases_and_loops_terminate :
    (∀ (d : Date) (f : Frequency) (i k : Int), d.Valid → 1 ≤ i → 1 ≤ k →
      ∃ r, increment_date d (some f) i k = .ok r ∧ r.Valid ∧
        d.toRD < r.toRD) ∧
    (∀ (b : Bill) (reference_date : Date) (inclusive : Bool),
      b.start_date.Valid →
      b.next_instance reference_date inclusive ≠ .error .fuelExhausted) ∧
    (∀ (b : Bill) (s e : Date), b.start_date.Valid →
      b.instances_in_range s e ≠ .error .fuelExhausted) ∧
    (∀ (s e : Date) (fq : Option Frequency) (iv : Option Int), s.Valid →
      Bill.calculate_occurrences_in_range s e fq iv ≠
        .error .fuelExhausted) := by
  refine ⟨?_, ?_, ?_, ?_⟩
  · intro d f i k hd hi hk
    refine ⟨pureStep f (i * k) d, increment_date_eq_pureStep d f i k hi hk,
      pureStep_valid f (i * k) d hd (one_le_mul_of_one_le_of_one_le hi hk),
      by
        have := pureStep_toRD_lt f (i * k) d hd
          (one_le_mul_of_one_le_of_one_le hi hk)
        omega⟩
  · intro b reference_date inclusive hs
    unfold Bill.next_instance
    by_cases h1 : afterEndB b.end_date reference_date = true
    · rw [if_pos h1]
      simp
    · rw [if_neg h1]
      by_cases h2 : reference_date.toRD < b.start_date.toRD
      · rw [if_pos h2]
        simp
      · rw [if_neg h2]
        dsimp only
        have hnf := stepWhile_ne_fuel b.next_due_date
          (fun cur => if inclusive then
            decide (cur.toRD < reference_date.toRD)
          else decide (cur.toRD ≤ reference_date.toRD))
          reference_date.toRD (bill_step_total b)
          (fun x hx => by
            split_ifs <;>
              simp only [decide_eq_false_iff_not, not_lt, not_le] <;>
              omega)
          ((reference_date.toRD - b.start_date.toRD).toNat + 2)
          b.start_date hs (by omega)
        cases hcw : stepWhile b.next_due_date
            (fun cur => if inclusive then
              decide (cur.toRD < reference_date.toRD)
            else decide (cur.toRD ≤ reference_date.toRD))
            ((reference_date.toRD - b.start_date.toRD).toNat + 2)
            b.start_date with
        | error e2 =>
            rw [hcw] at hnf
            intro hcontra
            dsimp only at hcontra
            injection hcontra with hx
            exact hnf (by rw [hx])
        | ok current =>
            intro hcontra
            have h4 : (if afterEndB b.end_date current then
                (.ok none : Except Err (Option BillInstance))
              else .ok (some ⟨current, b.bill_id, b.amount_due⟩)) =
                .error .fuelExhausted := hcontra
            split_ifs at h4
  · intro b s e hs
    unfold Bill.instances_in_range
    by_cases h1 : b.recurring = false
    · rw [if_pos h1]
      split_ifs <;> simp
    · rw [if_neg h1]
      by_cases h2 : e.toRD < b.start_date.toRD
      · rw [if_pos h2]
        simp
      · rw [if_neg h2]
        by_cases h3 : (match b.end_date with
            | some e2 => decide (e2.toRD < s.toRD)
            | none => false) = true
        · rw [if_pos h3]
          simp
        · rw [if_neg h3]
          dsimp only
          have hnf := collectWhile_ne_fuel b.next_due_date
            (match b.end_date with
              | some e2 => if e.toRD ≤ e2.toRD then e else e2
              | none => e).toRD
            (bill_step_total b)
            ((((match b.end_date with
              | some e2 => if e.toRD ≤ e2.toRD then e else e2
              | none => e).toRD - b.start_date.toRD).toNat) + 2)
            b.start_date hs (by omega)
          cases hcw : collectWhile b.next_due_date
              (match b.end_date with
                | some e2 => if e.toRD ≤ e2.toRD then e else e2
                | none => e).toRD
              (((match b.end_date with
                | some e2 => if e.toRD ≤ e2.toRD then e else e2
                | none => e).toRD - b.start_date.toRD).toNat + 2)
              b.start_date with
          | error e3 =>
              rw [hcw] at hnf
              intro hcontra
              dsimp only at hcontra
              injection hcontra with hx
              exact hnf (by rw [hx])
          | ok dates =>
              intro hcontra
              exact Except.noConfusion hcontra
  · intro s e fq iv hs
    unfold Bill.calculate_occurrences_in_range
    refine countWhile_ne_fuel _ e.toRD ?_
      ((e.toRD - s.toRD).toNat + 2) s hs (by omega)
    intro x hx
    cases iv with
    | none => exact Or.inl ⟨.typeError, rfl, by simp⟩
    | some i => exact inc_step_total fq i x hx

/-- Witness for C10 at a concrete date and frequency. -/
theorem increment_strictly_increases_witness :
    (⟨2025, 1, 31⟩ : Date).Valid ∧
    (∃ r, increment_date ⟨2025, 1, 31⟩ (some .monthly) 1 1 = .ok r ∧
      r.Valid ∧ (⟨2025, 1, 31⟩ : Date).toRD < r.toRD) :=
  ⟨by decide,
    (increment_strictly_increases_and_loops_terminate.1 ⟨2025, 1, 31⟩
      .monthly 1 1 (by decide) (by decide) (by decide))⟩

/-- C7: `instances_in_range` returns a strictly increasing (hence
non-decreasing and duplicate-free) sequence of due dates, each inside
the requested window and never past the obligation's end date; a
non-recurring obligation yields exactly one instance when its due date
lies in the window and none otherwise. -/
theorem occurrences_in_range_ordered (b : Bill)
    (start_reference end_reference : Date) :
    (b.recurring = false →
      b.instances_in_range start_reference end_reference =
        .ok (if start_reference.toRD ≤ b.start_date.toRD ∧
            b.start_date.toRD ≤ end_reference.toRD then
          [⟨b.start_date, b.bill_id, b.amount_due⟩]
        else [])) ∧
    (∀ f i, b.recurring = true → b.frequency = some f →
      b.interval = some i → 1 ≤ i → b.start_date.Valid →
      ∃ l, b.instances_in_range start_reference end_reference = .ok l ∧
        l.Pairwise (fun x y => x.due_date.toRD < y.due_date.toRD) ∧
        ∀ inst ∈ l, start_reference.toRD ≤ inst.due_date.toRD ∧
          inst.due_date.toRD ≤ end_reference.toRD ∧
          ∀ ed, b.end_date = some ed → inst.due_date.toRD ≤ ed.toRD) := by
  constructor
  · intro hrec
    unfold Bill.instances_in_range
    rw [if_pos hrec]
    split_ifs <;> rfl
  · intro f i hrec hf hiv hi hs
    unfold Bill.instances_in_range
    rw [if_neg (by simp [hrec])]
    by_cases h2 : end_reference.toRD < b.start_date.toRD
    · rw [if_pos h2]
      exact ⟨[], rfl, List.Pairwise.nil, by simp⟩
    · rw [if_neg h2]
      by_cases h3 : (match b.end_date with
          | some e2 => decide (e2.toRD < start_reference.toRD)
          | none => false) = true
      · rw [if_pos h3]
        exact ⟨[], rfl, List.Pairwise.nil, by simp⟩
      · rw [if_neg h3]
        dsimp only
        have hagree := bill_step_agree b f i hf hiv hi
        have hpkg := pureStep_pkg f i hi
        set E : Date := (match b.end_date with
          | some e2 =>
              if end_reference.toRD ≤ e2.toRD then end_reference else e2
          | none => end_reference) with hE
        have hterm : ∃ J, J < (E.toRD - b.start_date.toRD).toNat + 2 ∧
            E.toRD < ((pureStep f i)^[J] b.start_date).toRD := by
          refine ⟨(E.toRD - b.start_date.toRD).toNat + 1, by omega, ?_⟩
          have hg := orbit_valid_growth (pureStep f i) hpkg b.start_date
            hs ((E.toRD - b.start_date.toRD).toNat + 1)
          omega
        obtain ⟨N, hok, hb, hN⟩ := collectWhile_spec b.next_due_date
          (pureStep f i) E.toRD hagree hpkg
          ((E.toRD - b.start_date.toRD).toNat + 2) b.start_date hs hterm
        rw [hok]
        dsimp only
        refine ⟨_, rfl, ?_, ?_⟩
        · rw [List.pairwise_map]
          apply List.Pairwise.filter
          rw [List.pairwise_map]
          apply List.Pairwise.imp ?_ (List.pairwise_lt_range N)
          intro a c hac
          exact orbit_strictMono (pureStep f i) hpkg b.start_date hs a
            c hac
        · intro inst hmem
          obtain ⟨d, hdmem, hdinst⟩ := List.mem_map.1 hmem
          obtain ⟨hdd, hdfilt⟩ := List.mem_filter.1 hdmem
          obtain ⟨t, htN, hdt⟩ := List.mem_map.1 hdd
          have htRange := List.mem_range.1 htN
          have hdE : d.toRD ≤ E.toRD := by
            rw [← hdt]
            exact hb t htRange
          have hslb : start_reference.toRD ≤ d.toRD := by
            simpa using hdfilt
          have hEe : E.toRD ≤ end_reference.toRD ∧
              (∀ ed, b.end_date = some ed → E.toRD ≤ ed.toRD) := by
            rw [hE]
            match hed : b.end_date with
            | none => exact ⟨le_refl _, by simp⟩
            | some e2 =>
                dsimp only
                constructor
                · split_ifs <;> omega
                · intro ed hed2
                  injection hed2 with hed3
                  rw [← hed3]
                  split_ifs <;> omega
          rw [← hdinst]
          refine ⟨?_, ?_, ?_⟩
          · dsimp only
            exact hslb
          · dsimp only
            have := hEe.1
            omega
          · intro ed hed
            dsimp only
            have := hEe.2 ed hed
            omega

/-- Witness for C7: the spec's scenario (monthly from Jan 15 2024,
three occurrences) queried over the whole year. -/
theorem occurrences_in_range_ordered_witness :
    (Bill.mk "insurance" 150 false ⟨2024, 1, 15⟩ (some ⟨2024, 1, 15⟩)
        none none (some 1)).instances_in_range ⟨2024, 1, 1⟩
        ⟨2024, 12, 31⟩ =
      .ok (if (⟨2024, 1, 1⟩ : Date).toRD ≤ (⟨2024, 1, 15⟩ : Date).toRD ∧
          (⟨2024, 1, 15⟩ : Date).toRD ≤ (⟨2024, 12, 31⟩ : Date).toRD then
        [⟨⟨2024, 1, 15⟩, "insurance", 150⟩]
      else []) :=
  (occurrences_in_range_ordered _ ⟨2024, 1, 1⟩ ⟨2024, 12, 31⟩).1 rfl

theorem monthIndex_inj (a b : Date) (ha : a.Valid) (hb : b.Valid)
    (h : 12 * a.year + a.month = 12 * b.year + b.month) :
    a.year = b.year ∧ a.month = b.month := by
  obtain ⟨a1, a2, _, _⟩ := ha
  obtain ⟨b1, b2, _, _⟩ := hb
  constructor <;> omega

theorem increment_monthly_day_le (x : Date) (n : Int) :
    (increment_monthly x n).day ≤ x.day := by
  rw [increment_monthly_day]
  exact min_le_left _ _

theorem incM_orbit_mi (mm : Int) (s : Date) (k : Nat) :
    12 * ((fun x => increment_monthly x mm)^[k] s).year +
      ((fun x => increment_monthly x mm)^[k] s).month =
      12 * s.year + s.month + k * mm := by
  induction k with
  | zero => simp
  | succ t ih =>
      rw [Function.iterate_succ_apply']
      have := increment_monthly_monthIndex
        ((fun x => increment_monthly x mm)^[t] s) mm
      have hc : ((t + 1 : ℕ) : ℤ) * mm = (t : ℤ) * mm + mm := by
        push_cast
        ring
      omega

theorem incM_orbit_day (mm : Int) (s : Date) (k : Nat) :
    ((fun x => increment_monthly x mm)^[k] s).day ≤ s.day := by
  induction k with
  | zero => simp
  | succ t ih =>
      rw [Function.iterate_succ_apply']
      exact le_trans (increment_monthly_day_le _ mm) ih

theorem incM_orbit_valid (mm : Int) (s : Date) (hs : s.Valid) (k : Nat) :
    ((fun x => increment_monthly x mm)^[k] s).Valid := by
  induction k with
  | zero => simpa using hs
  | succ t ih =>
      rw [Function.iterate_succ_apply']
      exact increment_monthly_valid _ mm ih

/-- The `k`-step orbit of `mm`-month steps never lands later than the
single `mm*k`-month jump (sequential stepping clamps the day at every
step, the jump only once), and the jump stays strictly before the
`(k+1)`-step orbit point. -/
theorem incM_orbit_le_jump (mm : Int) (hmm : 1 ≤ mm) (s : Date)
    (hs : s.Valid) (k : Nat) :
    ((fun x => increment_monthly x mm)^[k] s).toRD ≤
      (increment_monthly s (mm * k)).toRD ∧
    (increment_monthly s (mm * k)).toRD <
      ((fun x => increment_monthly x mm)^[k + 1] s).toRD := by
  have hoval := incM_orbit_valid mm s hs k
  have hoval2 := incM_orbit_valid mm s hs (k + 1)
  have hjval := increment_monthly_valid s (mm * k) hs
  have hmi := incM_orbit_mi mm s k
  have hmi2 := incM_orbit_mi mm s (k + 1)
  have hjmi := increment_monthly_monthIndex s (mm * k)
  have hcomm : mm * (k : ℤ) = (k : ℤ) * mm := mul_comm _ _
  have hc : ((k + 1 : ℕ) : ℤ) * mm = (k : ℤ) * mm + mm := by
    push_cast
    ring
  constructor
  · have heq := monthIndex_inj _ _ hoval hjval (by omega)
    have hday := incM_orbit_day mm s k
    have hodim : ((fun x => increment_monthly x mm)^[k] s).day ≤
        daysInMonth ((fun x => increment_monthly x mm)^[k] s).year
          ((fun x => increment_monthly x mm)^[k] s).month := hoval.2.2.2
    apply toRD_le_same_month _ _ heq.1 heq.2
    rw [increment_monthly_day]
    refine le_min hday ?_
    rw [← heq.1, ← heq.2]
    exact hodim
  · apply toRD_lt_of_monthIndex_lt _ _ hjval hoval2
    omega

theorem annual_year_month (n : Int) (x : Date) :
    (pureStep .annual n x).year = x.year + n ∧
      (pureStep .annual n x).month = x.month := by
  unfold pureStep
  split_ifs <;> exact ⟨rfl, rfl⟩

theorem annual_day_le (n : Int) (x : Date) :
    (pureStep .annual n x).day ≤ x.day := by
  unfold pureStep
  have := daysInMonth_pos (x.year + n) x.month
  split_ifs with h <;> dsimp only <;> omega

theorem annual_orbit_ym (n : Int) (s : Date) (k : Nat) :
    ((pureStep .annual n)^[k] s).year = s.year + k * n ∧
      ((pureStep .annual n)^[k] s).month = s.month := by
  induction k with
  | zero => simp
  | succ t ih =>
      rw [Function.iterate_succ_apply']
      have := annual_year_month n ((pureStep .annual n)^[t] s)
      have hc : ((t + 1 : ℕ) : ℤ) * n = (t : ℤ) * n + n := by
        push_cast
        ring
      exact ⟨by omega, by rw [this.2, ih.2]⟩

theorem annual_orbit_day (n : Int) (s : Date) (k : Nat) :
    ((pureStep .annual n)^[k] s).day ≤ s.day := by
  induction k with
  | zero => simp
  | succ t ih =>
      rw [Function.iterate_succ_apply']
      exact le_trans (annual_day_le n _) ih

theorem annual_orbit_valid (n : Int) (hn : 1 ≤ n) (s : Date)
    (hs : s.Valid) (k : Nat) :
    ((pureStep .annual n)^[k] s).Valid := by
  induction k with
  | zero => simpa using hs
  | succ t ih =>
      rw [Function.iterate_succ_apply']
      exact pureStep_valid .annual n _ ih hn

/-- Annual analogue of `incM_orbit_le_jump`. -/
theorem annual_orbit_le_jump (n : Int) (hn : 1 ≤ n) (s : Date)
    (hs : s.Valid) (k : Nat) :
    ((pureStep .annual n)^[k] s).toRD ≤ (pureStep .annual (n * k) s).toRD ∧
    (pureStep .annual (n * k) s).toRD <
      ((pureStep .annual n)^[k + 1] s).toRD := by
  have hoval := annual_orbit_valid n hn s hs k
  have hoval2 := annual_orbit_valid n hn s hs (k + 1)
  have hnk : 1 ≤ n * k ∨ (k = 0) := by
    rcases Nat.eq_zero_or_pos k with h | h
    · exact Or.inr h
    · exact Or.inl (by
        have : (1 : ℤ) ≤ (k : ℤ) := by exact_mod_cast h
        nlinarith)
  have hjval : (pureStep .annual (n * k) s).Valid := by
    rcases hnk with h | h
    · exact pureStep_valid .annual _ s hs h
    · subst h
      unfold pureStep
      obtain ⟨h1, h2, h3, h4⟩ := hs
      rw [if_pos (by simpa using h4)]
      exact ⟨h1, h2, h3, by simpa using h4⟩
  have hjym := annual_year_month (n * k) s
  have hoym := annual_orbit_ym n s k
  have hoym2 := annual_orbit_ym n s (k + 1)
  have hcomm : n * (k : ℤ) = (k : ℤ) * n := mul_comm _ _
  have hc : ((k + 1 : ℕ) : ℤ) * n = (k : ℤ) * n + n := by
    push_cast
    ring
  have hjday : (pureStep .annual (n * k) s).day =
      if s.day ≤ daysInMonth (s.year + n * k) s.month then s.day
      else 28 := by
    unfold pureStep
    split_ifs <;> rfl
  constructor
  · apply toRD_le_same_month _ _ (by omega) (by rw [hoym.2, hjym.2])
    have hday := annual_orbit_day n s k
    have hodim := hoval.2.2.2
    rw [hoym.1, hoym.2] at hodim
    rw [← hcomm] at hodim
    rw [hjday]
    split_ifs with hcl
    · exact hday
    · by_cases hm2 : s.month = 2
      · have hdim29 : daysInMonth (s.year + n * k) s.month ≤ 29 := by
          rw [hm2]
          unfold daysInMonth
          split_ifs <;> omega
        have hdim29s : daysInMonth s.year s.month ≤ 29 := by
          rw [hm2]
          unfold daysInMonth
          split_ifs <;> omega
        have hdimpos := daysInMonth_pos (s.year + n * k) s.month
        have hs4 := hs.2.2.2
        omega
      · exact absurd (daysInMonth_eq_of_ne_two s.year (s.year + n * k)
          s.month hm2) (by
            have hs4 := hs.2.2.2
            omega)
  · apply toRD_lt_of_year_lt _ _ hjval hoval2
    rw [hjym.1, hoym2.1]
    omega

/-- For every frequency the sequentially stepped orbit stays at or
before the single jump of the same total span, and the jump stays
strictly before the next orbit point. -/
theorem orbit_le_jump (f : Frequency) (i : Int) (hi : 1 ≤ i) (s : Date)
    (hs : s.Valid) (k : Nat) :
    ((pureStep f i)^[k] s).toRD ≤ (pureStep f (i * k) s).toRD ∧
    (pureStep f (i * k) s).toRD < ((pureStep f i)^[k + 1] s).toRD := by
  cases f with
  | daily =>
      have hfun : pureStep .daily i = fun x : Date => x.addDays i.toNat := by
        funext x
        rfl
      have hmul : (i * k).toNat = k * i.toNat := by
        lift i to ℕ using (by omega) with a
        rw [show ((a : ℤ) * (k : ℕ) : ℤ) = ((a * k : ℕ) : ℤ) by
            push_cast; ring,
          Int.toNat_natCast, Int.toNat_natCast, Nat.mul_comm]
      have hjump : pureStep .daily (i * k) s = s.addDays (k * i.toNat) := by
        show s.addDays (i * k).toNat = _
        rw [hmul]
      rw [hfun, iterate_addDays, iterate_addDays, hjump]
      refine ⟨le_refl _, ?_⟩
      rw [toRD_addDays s _ hs, toRD_addDays s _ hs]
      have hlt : k * i.toNat < (k + 1) * i.toNat := by
        have hi1 : 1 ≤ i.toNat := by omega
        calc k * i.toNat < k * i.toNat + i.toNat := by omega
          _ = (k + 1) * i.toNat := by ring
      omega
  | weekly =>
      have hfun : pureStep .weekly i =
          fun x : Date => x.addDays (7 * i).toNat := by
        funext x
        rfl
      have hmul : (7 * (i * k)).toNat = k * (7 * i).toNat := by
        lift i to ℕ using (by omega) with a
        rw [show ((7 : ℤ) * ((a : ℤ) * (k : ℕ)) : ℤ) =
            ((7 * a * k : ℕ) : ℤ) by push_cast; ring,
          show ((7 : ℤ) * (a : ℤ) : ℤ) = ((7 * a : ℕ) : ℤ) by
            push_cast; ring,
          Int.toNat_natCast, Int.toNat_natCast, Nat.mul_comm]
      have hjump : pureStep .weekly (i * k) s =
          s.addDays (k * (7 * i).toNat) := by
        show s.addDays (7 * (i * k)).toNat = _
        rw [hmul]
      rw [hfun, iterate_addDays, iterate_addDays, hjump]
      refine ⟨le_refl _, ?_⟩
      rw [toRD_addDays s _ hs, toRD_addDays s _ hs]
      have hlt : k * (7 * i).toNat < (k + 1) * (7 * i).toNat := by
        have hi1 : 1 ≤ (7 * i).toNat := by omega
        calc k * (7 * i).toNat
            < k * (7 * i).toNat + (7 * i).toNat := by omega
          _ = (k + 1) * (7 * i).toNat := by ring
      omega
  | monthly =>
      have hfun : pureStep .monthly i =
          fun x : Date => increment_monthly x i := by
        funext x
        rfl
      have hjump : pureStep .monthly (i * k) s =
          increment_monthly s (i * k) := rfl
      rw [hfun, hjump]
      exact incM_orbit_le_jump i hi s hs k
  | quarterly =>
      have hfun : pureStep .quarterly i =
          fun x : Date => increment_monthly x (3 * i) := by
        funext x
        rfl
      have hjump : pureStep .quarterly (i * k) s =
          increment_monthly s ((3 * i) * k) := by
        show increment_monthly s (3 * (i * k)) = _
        ring_nf
      rw [hfun, hjump]
      exact incM_orbit_le_jump (3 * i) (by omega) s hs k
  | annual =>
      exact annual_orbit_le_jump i hi s hs k

/-- C8 (amended): for a recurring bill built from an occurrence count
`N > 1`, the derived `end_date` is the single calendar jump
`increment_date(start, f, i, N-1)` — one clamp over `i*(N-1)` units,
which can differ from stepping one interval at a time `N-1` times —
and rebuilding the bill from that `end_date` instead of the count
derives exactly `N` occurrences (indeed the identical bill). -/
theorem bill_end_date_single_jump_roundtrip (s : Date) (f : Frequency)
    (i N : Int) (billid : String) (amt : ℚ) (hs : s.Valid) (hi : 1 ≤ i)
    (hN : 2 ≤ N) (hbid : billid ≠ "") (hamt : 0 < amt) :
    ∃ ejump, increment_date s (some f) i (N - 1) = .ok ejump ∧
      Bill.make billid amt true none (some s) none (some f) (some i)
        (some N) =
        .ok ⟨billid, amt, true, s, some ejump, some f, some i, some N⟩ ∧
      Bill.make billid amt true none (some s) (some ejump) (some f)
        (some i) none =
        .ok ⟨billid, amt, true, s, some ejump, some f, some i, some N⟩ := by
  have hinc := increment_date_eq_pureStep s f i (N - 1) hi (by omega)
  set K : Nat := (N - 1).toNat with hK
  have hKcast : ((K : ℤ)) = N - 1 := by omega
  have hjump : pureStep f (i * (N - 1)) s = pureStep f (i * K) s := by
    rw [hKcast]
  obtain ⟨hA, hB⟩ := orbit_le_jump f i hi s hs K
  have hagree : ∀ x : Date, x.Valid →
      (fun cur => match (some i : Option Int) with
        | none => (.error .typeError : Except Err Date)
        | some j => increment_date cur (some f) j 1) x =
        .ok (pureStep f i x) := by
    intro x _
    exact increment_date_one_eq_pureStep x f i hi
  have hpkg := pureStep_pkg f i hi
  have hgrow := orbit_valid_growth (pureStep f i) hpkg s hs K
  refine ⟨pureStep f (i * (N - 1)) s, hinc, ?_, ?_⟩
  · unfold Bill.make
    rw [if_neg (by simpa using hbid), if_neg (by
      simp only [not_le]
      exact hamt)]
    rw [if_neg (by simp)]
    dsimp only
    rw [if_neg (by
      intro hcon
      omega)]
    rw [if_pos (by omega)]
    have hinc2 : increment_date s (some f) ((some i).getD 0) (N - 1) =
        .ok (pureStep f (i * (N - 1)) s) := hinc
    rw [hinc2]
  · unfold Bill.make
    rw [if_neg (by simpa using hbid), if_neg (by
      simp only [not_le]
      exact hamt)]
    rw [if_neg (by simp)]
    dsimp only
    have hcount : Bill.calculate_occurrences_in_range s
        (pureStep f (i * (N - 1)) s) (some f) (some i) = .ok K.succ := by
      unfold Bill.calculate_occurrences_in_range
      apply countWhile_spec _ (pureStep f i) _ hagree hpkg
      · exact hs
      · have hle := hA
        rw [← hjump] at hle
        have : s.toRD + K ≤ (pureStep f (i * (N - 1)) s).toRD := by
          have := hgrow.2
          omega
        omega
      · intro t ht
        have ht2 : t ≤ K := by omega
        rcases eq_or_lt_of_le ht2 with he | hlt
        · subst he
          rw [hjump]
          exact hA
        · have := orbit_strictMono (pureStep f i) hpkg s hs t K hlt
          have hle := hA
          rw [← hjump] at hle
          omega
      · rw [hjump]
        exact hB
    rw [hcount]
    dsimp only
    have hfinal : ((K.succ : ℕ) : ℤ) = N := by omega
    rw [hfinal]

/-- C8 counterexample: for a monthly bill starting Jan 31 2024 with 3
occurrences the code derives end_date 2024-03-31 (single 2-month jump),
while stepping the single-month increment twice lands on 2024-03-29. -/
theorem bill_end_date_not_sequential :
    Bill.make "rent" 1200 true none (some ⟨2024, 1, 31⟩) none
      (some .monthly) (some 1) (some 3) =
      .ok ⟨"rent", 1200, true, ⟨2024, 1, 31⟩, some ⟨2024, 3, 31⟩,
        some .monthly, some 1, some 3⟩ ∧
    increment_date ⟨2024, 1, 31⟩ (some .monthly) 1 1 =
      .ok ⟨2024, 2, 29⟩ ∧
    increment_date ⟨2024, 2, 29⟩ (some .monthly) 1 1 =
      .ok ⟨2024, 3, 29⟩ ∧
    (⟨2024, 3, 31⟩ : Date) ≠ ⟨2024, 3, 29⟩ :=
  ⟨rfl, rfl, rfl, by decide⟩

/-- Witness for C8: the Jan 31 2024 monthly bill with 3 occurrences. -/
theorem bill_end_date_single_jump_roundtrip_witness :
    ∃ ejump,
      increment_date ⟨2024, 1, 31⟩ (some .monthly) 1 (3 - 1) =
        .ok ejump ∧
      Bill.make "rent" 1200 true none (some ⟨2024, 1, 31⟩) none
        (some .monthly) (some 1) (some 3) =
        .ok ⟨"rent", 1200, true, ⟨2024, 1, 31⟩, some ejump, some .monthly,
          some 1, some 3⟩ ∧
      Bill.make "rent" 1200 true none (some ⟨2024, 1, 31⟩) (some ejump)
        (some .monthly) (some 1) none =
        .ok ⟨"rent", 1200, true, ⟨2024, 1, 31⟩, some ejump, some .monthly,
          some 1, some 3⟩ :=
  bill_end_date_single_jump_roundtrip ⟨2024, 1, 31⟩ .monthly 1 3 "rent"
    1200 (by decide) (by decide) (by decide) (by decide) (by decide)

theorem roundHalfEven_intCast (k : Int) : roundHalfEven (k : ℚ) = k := by
  simp only [roundHalfEven, Int.floor_intCast, sub_self]
  norm_num

/-- `round2` leaves whole numbers of cents unchanged. -/
theorem round2_cents (k : Int) : round2 ((k : ℚ) / 100) = (k : ℚ) / 100 := by
  unfold round2
  rw [show (100 : ℚ) * ((k : ℚ) / 100) = (k : ℚ) by field_simp]
  rw [roundHalfEven_intCast]

/-- C5 evidence: on the envelope of the repository's own lifecycle
test, the balance queried on 2024-02-12 (the last transaction date) is
150, but queried on 2024-02-15 — the due date, three days LATER, with
no intervening transactions — it is 25: `total_amount_as_of_date`'s
defensive branch returns 0 whenever `as_of_date` lies after every
ledger transaction, zeroing all contributions instead of summing the
transactions dated on or before `as_of_date`. -/
theorem balance_as_of_date_defensive_zero :
    Envelope.get_balance_as_of_date lifecycleEnvelope ⟨2024, 2, 12⟩ none
      = 150 ∧
    Envelope.get_balance_as_of_date lifecycleEnvelope ⟨2024, 2, 15⟩ none
      = 25 ∧
    (150 : ℚ) ≠ 25 := by
  refine ⟨?_, ?_, by norm_num⟩
  · unfold Envelope.get_balance_as_of_date lifecycleEnvelope
    dsimp only
    unfold total_amount_as_of_date
    rw [if_neg (by decide)]
    unfold cash_flows_in_range
    simp +decide [List.filter_cons]
    norm_num
  · unfold Envelope.get_balance_as_of_date lifecycleEnvelope
    dsimp only
    unfold total_amount_as_of_date
    rw [if_pos (by decide)]
    norm_num

theorem round2_isCents (x : ℚ) : IsCents (round2 x) :=
  ⟨roundHalfEven (100 * x), rfl⟩

theorem IsCents.round2_self {x : ℚ} (h : IsCents x) : round2 x = x := by
  obtain ⟨m, rfl⟩ := h
  exact round2_cents m

theorem IsCents.sub {x y : ℚ} (hx : IsCents x) (hy : IsCents y) :
    IsCents (x - y) := by
  obtain ⟨m, rfl⟩ := hx
  obtain ⟨n, rfl⟩ := hy
  exact ⟨m - n, by push_cast; ring⟩

theorem IsCents.int_mul {x : ℚ} (n : Int) (hx : IsCents x) :
    IsCents ((n : ℚ) * x) := by
  obtain ⟨m, rfl⟩ := hx
  exact ⟨n * m, by push_cast; ring⟩

theorem cents_sum (l : List ℚ) (h : ∀ x ∈ l, IsCents x) :
    IsCents l.sum := by
  induction l with
  | nil => exact ⟨0, by norm_num⟩
  | cons a t ih =>
      rw [List.sum_cons]
      obtain ⟨m, hm⟩ := h a (List.mem_cons_self a t)
      obtain ⟨n, hn⟩ := ih (fun x hx => h x (List.mem_cons_of_mem a hx))
      exact ⟨m + n, by rw [hm, hn]; push_cast; ring⟩

/-- From index 1 on, the loop just rounds each interval amount (skipped
zero amounts contribute zero either way). -/
theorem contribLoop_sum_ge_one (bid : String) (diff : ℚ) :
    ∀ (L : List (Int × ℚ)) (i : Nat) (d : Date), 1 ≤ i →
      ((contribLoop bid diff L i d).map (fun cf => cf.amount)).sum
        = (L.map (fun p => round2 p.2)).sum := by
  intro L
  induction L with
  | nil => intro i d _; rfl
  | cons p rest ih =>
      intro i d hi
      obtain ⟨days, amount⟩ := p
      unfold contribLoop
      rw [show (if i = 0 then diff else 0) = 0 from
        if_neg (by omega), add_zero]
      by_cases hz : round2 amount = 0
      · rw [if_pos hz, ih (i + 1) d (by omega)]
        simp [hz]
      · rw [if_neg hz]
        simp only [List.map_cons, List.sum_cons]
        rw [ih (i + 1) _ (by omega)]

/-- The loop's amounts sum to the corrected first amount plus the
rounded remaining interval amounts. -/
theorem contribLoop_sum_zero (bid : String) (diff : ℚ) (p : Int × ℚ)
    (rest : List (Int × ℚ)) (d : Date) :
    ((contribLoop bid diff (p :: rest) 0 d).map
        (fun cf => cf.amount)).sum
      = round2 (p.2 + diff)
        + (rest.map (fun q => round2 q.2)).sum := by
  obtain ⟨days, amount⟩ := p
  unfold contribLoop
  rw [show (if (0 : Nat) = 0 then diff else 0) = diff from if_pos rfl]
  by_cases hz : round2 (amount + diff) = 0
  · rw [if_pos hz, contribLoop_sum_ge_one bid diff rest 1 d (le_refl 1)]
    rw [hz, zero_add]
  · rw [if_neg hz]
    simp only [List.map_cons, List.sum_cons]
    rw [contribLoop_sum_ge_one bid diff rest 1 _ (le_refl 1)]

/-- Every emitted contribution is non-zero (the zero-skip guard). -/
theorem contribLoop_mem_ne_zero (bid : String) (diff : ℚ) :
    ∀ (L : List (Int × ℚ)) (i : Nat) (d : Date) (cf : CashFlow),
      cf ∈ contribLoop bid diff L i d → cf.amount ≠ 0 := by
  intro L
  induction L with
  | nil => intro i d cf h; simp [contribLoop] at h
  | cons p rest ih =>
      intro i d cf h
      obtain ⟨days, amount⟩ := p
      unfold contribLoop at h
      by_cases hz : round2 (amount + (if i = 0 then diff else 0)) = 0
      · rw [if_pos hz] at h
        exact ih _ _ _ h
      · rw [if_neg hz] at h
        rcases List.mem_cons.1 h with hc | hc
        · rw [hc]
          exact hz
        · exact ih _ _ _ hc

/-- With a later due date and a positive interval the interval list is
never empty (a full or a partial interval always exists). -/
theorem calculate_intervals_ne_nil (s e : Date) (interval : Int)
    (hiv : 1 ≤ interval) (hse : s.toRD < e.toRD) :
    calculate_intervals s e interval ≠ [] := by
  unfold calculate_intervals
  dsimp only
  have h1 : 1 ≤ e.toRD - s.toRD := by omega
  have hdm := Int.ediv_add_emod (e.toRD - s.toRD) interval
  have hm0 : 0 ≤ (e.toRD - s.toRD) % interval :=
    Int.emod_nonneg _ (by omega)
  split_ifs with h
  · simp
  · have hz : (e.toRD - s.toRD) % interval = 0 := by omega
    have hq : 1 ≤ (e.toRD - s.toRD) / interval := by
      by_contra hc
      push_neg at hc
      have hle : (e.toRD - s.toRD) / interval ≤ 0 := by omega
      have hmul : interval * ((e.toRD - s.toRD) / interval)
          ≤ interval * 0 := mul_le_mul_of_nonneg_left hle (by omega)
      rw [mul_zero] at hmul
      omega
    intro hcon
    have hlen := congrArg List.length hcon
    simp only [List.length_replicate, List.length_nil] at hlen
    omega

/-- The daily contribution is a whole number of cents whenever the
remaining amount is. -/
theorem daily_contribution_isCents (remaining : ℚ) (due curr : Date)
    (k : Int) (hk : remaining = (k : ℚ) / 100) :
    IsCents (daily_contribution remaining due curr) := by
  unfold daily_contribution
  dsimp only
  split_ifs with h
  · exact ⟨k, hk⟩
  · exact round2_isCents _

/-- C1 (amended): the residual difference between `remaining` and the
sum of the rounded interval contributions is added to the FIRST
contribution (not the last), and — whenever `remaining` is a whole
number of cents — the SIGNED amounts of the emitted contribution
transactions (all of them non-zero, preceding the final disbursement)
sum exactly to `remaining`.  The positive transactions alone need not:
a large negative residual can make the first contribution negative. -/
theorem indep_scheduler_exact_funding (env_bill : Bill)
    (env_interval : Int) (env_remaining : ℚ) (start_date : Date)
    (inst : BillInstance) (k : Int)
    (hk : env_remaining = (k : ℚ) / 100) (hiv : 1 ≤ env_interval)
    (hni : env_bill.next_instance start_date false = .ok (some inst)) :
    ∃ flows : List CashFlow,
      IndependentScheduler.schedule_envelope env_bill env_interval
          env_remaining start_date =
        .ok (some (flows ++
          [⟨inst.due_date, inst.bill_id, -env_bill.amount_due⟩])) ∧
      (flows.map (fun cf => cf.amount)).sum = env_remaining ∧
      ∀ cf ∈ flows, cf.amount ≠ 0 := by
  have hgt : start_date.toRD < inst.due_date.toRD :=
    next_instance_due_gt env_bill start_date inst hni
  refine ⟨contribLoop inst.bill_id
      (env_remaining - (((calculate_intervals start_date inst.due_date
          env_interval).map (fun interval : Int => (interval, (interval : ℚ) *
            daily_contribution env_remaining inst.due_date
              start_date))).map (fun contrib => contrib.2)).sum)
      ((calculate_intervals start_date inst.due_date env_interval).map
        (fun interval : Int => (interval, (interval : ℚ) *
          daily_contribution env_remaining inst.due_date start_date)))
      0 start_date, ?_, ?_, ?_⟩
  · unfold IndependentScheduler.schedule_envelope
    rw [hni]
  · have hdC : IsCents (daily_contribution env_remaining inst.due_date
        start_date) := daily_contribution_isCents _ _ _ k hk
    have hne := calculate_intervals_ne_nil start_date inst.due_date
      env_interval hiv hgt
    cases hIL : calculate_intervals start_date inst.due_date
        env_interval with
    | nil => exact absurd hIL hne
    | cons iv0 ivrest =>
        set dc := daily_contribution env_remaining inst.due_date
          start_date with hdc
        simp only [List.map_cons, List.sum_cons]
        rw [contribLoop_sum_zero]
        simp only [List.map_map]
        have hA : ivrest.map ((fun contrib : Int × ℚ => contrib.2) ∘
              (fun interval : Int => (interval, (interval : ℚ) * dc)))
            = ivrest.map (fun iv : Int => (iv : ℚ) * dc) := rfl
        have hB : ivrest.map ((fun q : Int × ℚ => round2 q.2) ∘
              (fun interval : Int => (interval, (interval : ℚ) * dc)))
            = ivrest.map (fun iv : Int => round2 ((iv : ℚ) * dc)) := rfl
        rw [hA, hB]
        have hB2 : ivrest.map (fun iv : Int => round2 ((iv : ℚ) * dc))
            = ivrest.map (fun iv : Int => (iv : ℚ) * dc) := by
          refine List.map_congr_left ?_
          intro iv _
          exact (hdC.int_mul iv).round2_self
        rw [hB2]
        have hS : IsCents ((ivrest.map
            (fun iv : Int => (iv : ℚ) * dc)).sum) := by
          refine cents_sum _ ?_
          intro x hx
          obtain ⟨iv, _, rfl⟩ := List.mem_map.1 hx
          exact hdC.int_mul iv
        have harg : (iv0 : ℚ) * dc + (env_remaining - ((iv0 : ℚ) * dc +
              (ivrest.map (fun iv : Int => (iv : ℚ) * dc)).sum))
            = env_remaining -
              (ivrest.map (fun iv : Int => (iv : ℚ) * dc)).sum := by
          ring
        rw [harg]
        rw [IsCents.round2_self (IsCents.sub ⟨k, hk⟩ hS)]
        ring
  · intro cf h
    exact contribLoop_mem_ne_zero _ _ _ _ _ cf h

/-- Unfolding step of the loop at index 0 when the corrected first
amount is non-zero. -/
theorem contribLoop_zero_emit (bid : String) (diff a v : ℚ) (days : Int)
    (rest : List (Int × ℚ)) (d : Date)
    (hv : round2 (a + diff) = v) (hnz : ¬ v = 0) :
    contribLoop bid diff ((days, a) :: rest) 0 d =
      (⟨d, bid, v⟩ : CashFlow) :: contribLoop bid diff rest 1 d := by
  conv_lhs => rw [contribLoop]
  rw [show (if (0 : Nat) = 0 then diff else 0) = diff from if_pos rfl,
    hv, if_neg hnz]
  rw [show (if 0 < (0 : Nat) then d.addDays days.toNat else d) = d from
    if_neg (by omega)]

/-- Unfolding step of the loop at a positive index when the rounded
amount is non-zero. -/
theorem contribLoop_pos_emit (bid : String) (diff a v : ℚ) (days : Int)
    (rest : List (Int × ℚ)) (i : Nat) (d : Date) (hi : 0 < i)
    (hv : round2 a = v) (hnz : ¬ v = 0) :
    contribLoop bid diff ((days, a) :: rest) i d =
      (⟨d.addDays days.toNat, bid, v⟩ : CashFlow)
        :: contribLoop bid diff rest (i + 1) (d.addDays days.toNat) := by
  conv_lhs => rw [contribLoop]
  rw [show (if i = 0 then diff else 0) = 0 from if_neg (by omega),
    add_zero, hv, if_neg hnz]
  rw [show (if 0 < i then d.addDays days.toNat else d)
    = d.addDays days.toNat from if_pos hi]

/-- C1 counterexample: remaining 0.03 over the five days 2024-01-01 to
2024-01-06 with a one-day interval.  The daily contribution rounds up
to 0.01, the five rounded interval contributions sum to 0.05, and the
residual −0.02 is added to the FIRST contribution — not the last —
making it −0.01.  The positive transactions of the produced ledger sum
to 0.04, not to the remaining 0.03. -/
theorem indep_scheduler_residual_to_first :
    IndependentScheduler.schedule_envelope
        ⟨"water", 100, false, ⟨2024, 1, 6⟩, some ⟨2024, 1, 6⟩, none,
          none, some 1⟩ 1 (3 / 100) ⟨2024, 1, 1⟩ =
      .ok (some
        [⟨⟨2024, 1, 1⟩, "water", -(1 / 100)⟩,
         ⟨⟨2024, 1, 2⟩, "water", 1 / 100⟩,
         ⟨⟨2024, 1, 3⟩, "water", 1 / 100⟩,
         ⟨⟨2024, 1, 4⟩, "water", 1 / 100⟩,
         ⟨⟨2024, 1, 5⟩, "water", 1 / 100⟩,
         ⟨⟨2024, 1, 6⟩, "water", -100⟩]) ∧
    ((([⟨⟨2024, 1, 1⟩, "water", -(1 / 100)⟩,
        ⟨⟨2024, 1, 2⟩, "water", 1 / 100⟩,
        ⟨⟨2024, 1, 3⟩, "water", 1 / 100⟩,
        ⟨⟨2024, 1, 4⟩, "water", 1 / 100⟩,
        ⟨⟨2024, 1, 5⟩, "water", 1 / 100⟩,
        ⟨⟨2024, 1, 6⟩, "water", -100⟩] : List CashFlow).filter
      (fun cf => cf.is_inflow)).map (fun cf => cf.amount)).sum
        = 1 / 25 ∧
    (1 / 25 : ℚ) ≠ 3 / 100 := by
  have hv1 : round2 ((1 : ℚ) / 100) = 1 / 100 := by
    rw [show ((1 : ℚ) / 100) = ((1 : Int) : ℚ) / 100 by norm_num,
      round2_cents]
  refine ⟨?_, ?_, by norm_num⟩
  · have hni : Bill.next_instance ⟨"water", 100, false, ⟨2024, 1, 6⟩,
        some ⟨2024, 1, 6⟩, none, none, some 1⟩ ⟨2024, 1, 1⟩ false =
        .ok (some ⟨⟨2024, 1, 6⟩, "water", 100⟩) := rfl
    have hdc : daily_contribution (3 / 100) ⟨2024, 1, 6⟩ ⟨2024, 1, 1⟩
        = 1 / 100 := by
      unfold daily_contribution
      dsimp only
      rw [show max 0 ((⟨2024, 1, 6⟩ : Date).toRD
        - (⟨2024, 1, 1⟩ : Date).toRD) = 5 from by decide]
      rw [if_neg (by norm_num : ¬(5 : Int) = 0)]
      unfold round2
      rw [show (100 : ℚ) * ((3 / 100) / ((5 : Int) : ℚ)) = 3 / 5 from by
        push_cast; norm_num]
      unfold roundHalfEven
      dsimp only
      rw [show ⌊(3 / 5 : ℚ)⌋ = 0 from by norm_num [Int.floor_eq_iff]]
      norm_num
    have hint : calculate_intervals ⟨2024, 1, 1⟩ ⟨2024, 1, 6⟩ 1
        = [1, 1, 1, 1, 1] := by decide
    unfold IndependentScheduler.schedule_envelope
    rw [hni]
    dsimp only
    rw [hint, hdc]
    simp only [List.map_cons, List.map_nil, List.sum_cons, List.sum_nil,
      Int.cast_one, one_mul]
    have hv0 : round2 (1 / 100 + (3 / 100 - (1 / 100 + (1 / 100
        + (1 / 100 + (1 / 100 + (1 / 100 + 0))))))) = -(1 / 100) := by
      rw [show (1 / 100 + (3 / 100 - (1 / 100 + (1 / 100 + (1 / 100
          + (1 / 100 + (1 / 100 + 0)))))) : ℚ)
        = ((-1 : Int) : ℚ) / 100 from by push_cast; norm_num,
        round2_cents]
      norm_num
    rw [contribLoop_zero_emit _ _ _ _ _ _ _ hv0 (by norm_num)]
    rw [contribLoop_pos_emit _ _ _ _ _ _ _ _ (by omega) hv1
      (by norm_num)]
    rw [contribLoop_pos_emit _ _ _ _ _ _ _ _ (by omega) hv1
      (by norm_num)]
    rw [contribLoop_pos_emit _ _ _ _ _ _ _ _ (by omega) hv1
      (by norm_num)]
    rw [contribLoop_pos_emit _ _ _ _ _ _ _ _ (by omega) hv1
      (by norm_num)]
    rfl
  · rw [List.filter_cons, if_neg (by
      simp only [CashFlow.is_inflow, decide_eq_true_eq]; norm_num)]
    rw [List.filter_cons, if_pos (by
      simp only [CashFlow.is_inflow, decide_eq_true_eq]; norm_num)]
    rw [List.filter_cons, if_pos (by
      simp only [CashFlow.is_inflow, decide_eq_true_eq]; norm_num)]
    rw [List.filter_cons, if_pos (by
      simp only [CashFlow.is_inflow, decide_eq_true_eq]; norm_num)]
    rw [List.filter_cons, if_pos (by
      simp only [CashFlow.is_inflow, decide_eq_true_eq]; norm_num)]
    rw [List.filter_cons, if_neg (by
      simp only [CashFlow.is_inflow, decide_eq_true_eq]; norm_num)]
    rw [List.filter_nil]
    simp only [List.map_cons, List.map_nil, List.sum_cons, List.sum_nil]
    norm_num

/-- Witness for C1 (amended) at the counterexample's own input: the
hypotheses hold and the signed contribution amounts sum to the
remaining 0.03. -/
theorem indep_scheduler_exact_funding_witness :
    (3 / 100 : ℚ) = ((3 : Int) : ℚ) / 100 ∧ (1 : Int) ≤ 1 ∧
    Bill.next_instance ⟨"water", 100, false, ⟨2024, 1, 6⟩,
        some ⟨2024, 1, 6⟩, none, none, some 1⟩ ⟨2024, 1, 1⟩ false =
      .ok (some ⟨⟨2024, 1, 6⟩, "water", 100⟩) ∧
    ∃ flows : List CashFlow,
      IndependentScheduler.schedule_envelope
          ⟨"water", 100, false, ⟨2024, 1, 6⟩, some ⟨2024, 1, 6⟩, none,
            none, some 1⟩ 1 (3 / 100) ⟨2024, 1, 1⟩ =
        .ok (some (flows ++ [⟨⟨2024, 1, 6⟩, "water", -(100 : ℚ)⟩])) ∧
      (flows.map (fun cf => cf.amount)).sum = 3 / 100 ∧
      ∀ cf ∈ flows, cf.amount ≠ 0 :=
  ⟨by norm_num, le_refl 1, rfl,
    indep_scheduler_exact_funding
      ⟨"water", 100, false, ⟨2024, 1, 6⟩, some ⟨2024, 1, 6⟩, none, none,
        some 1⟩ 1 (3 / 100) ⟨2024, 1, 1⟩ ⟨⟨2024, 1, 6⟩, "water", 100⟩ 3
      (by norm_num) (le_refl 1) rfl⟩

/-- The LP model of `optimize_contributions` has a feasible point and a
non-negative objective for positive amounts and positive days until
due. -/
theorem lp_feasible_bounded (amounts : Nat → ℚ) (dues : Nat → Nat)
    (n T : Nat) (hn : 1 ≤ n)
    (hpos : ∀ i, i < n → 0 < amounts i ∧ 1 ≤ dues i ∧ dues i ≤ T) :
    (∃ xf y z w, LPFeasible amounts dues n T xf y z w) ∧
    (∀ xf y z w, LPFeasible amounts dues n T xf y z w → 0 ≤ z - w) := by
  have hx_nonneg : ∀ i t, 0 ≤ lpX amounts dues n i t := by
    intro i t
    unfold lpX
    split_ifs with hc
    · exact div_nonneg (le_of_lt (hpos i hc.1).1) (by positivity)
    · exact le_refl 0
  constructor
  · refine ⟨lpX amounts dues n, lpY amounts dues n, lpZ amounts dues n,
      0, ?_, ?_, ?_, ?_, ?_, ?_, ?_, ?_, ?_⟩
    · intro i _ t _
      exact hx_nonneg i t
    · intro t _
      exact Finset.sum_nonneg (fun i _ => hx_nonneg i t)
    · refine Finset.sum_nonneg ?_
      intro i hi
      exact div_nonneg
        (le_of_lt (hpos i (Finset.mem_range.1 hi)).1) (by positivity)
    · exact le_refl 0
    · intro i hi
      have hstep : ∀ t ∈ Finset.range (dues i),
          lpX amounts dues n i t = amounts i / (dues i : ℚ) := by
        intro t ht
        unfold lpX
        exact if_pos ⟨hi, Finset.mem_range.1 ht⟩
      rw [Finset.sum_congr rfl hstep, Finset.sum_const,
        Finset.card_range, nsmul_eq_mul]
      have hd0 : ((dues i : ℚ)) ≠ 0 := by
        have := (hpos i hi).2.1
        positivity
      field_simp
    · intro i _ t hdt _
      unfold lpX
      exact if_neg (by omega)
    · intro t _
      rfl
    · intro t _
      unfold lpY lpZ
      refine Finset.sum_le_sum ?_
      intro i hi
      unfold lpX
      split_ifs with hc
      · exact le_refl _
      · exact div_nonneg
          (le_of_lt (hpos i (Finset.mem_range.1 hi)).1) (by positivity)
    · intro t _
      exact Finset.sum_nonneg (fun i _ => hx_nonneg i t)
  · intro xf y z w hf
    obtain ⟨-, -, -, -, -, -, -, h8, h9⟩ := hf
    have hT : 0 < T := by
      have h0 := hpos 0 (by omega)
      omega
    have := h8 0 hT
    have := h9 0 hT
    linarith

/-- C9 (amended): for a NONEMPTY list of scheduling targets the
embedded `optimize_contributions` fails exactly when the solver status
is not Optimal, returning the single ValueError directly to the caller
(no retry, no fallback path exists in the function); and the LP model
itself is feasible with non-negative objective for positive amounts
and positive days until due, so an exact solver reports Optimal.  On
an EMPTY list the function instead crashes with IndexError at
`bills[-1]` before ever solving, regardless of the status. -/
theorem lp_optimization_error_iff (bills : List BillInstance)
    (start_date : Date) (status : LpStatus) (x : Nat → Nat → ℚ)
    (hne : bills ≠ []) :
    ((∃ e, LPScheduler.optimize_contributions bills start_date status x
        = .error e) ↔ status ≠ .optimal) ∧
    (status ≠ .optimal →
      LPScheduler.optimize_contributions bills start_date status x
        = .error (.valueError "Could not find optimal solution.")) ∧
    (∀ (amounts : Nat → ℚ) (dues : Nat → Nat) (n T : Nat), 1 ≤ n →
      (∀ i, i < n → 0 < amounts i ∧ 1 ≤ dues i ∧ dues i ≤ T) →
      (∃ xf y z w, LPFeasible amounts dues n T xf y z w) ∧
      (∀ xf y z w, LPFeasible amounts dues n T xf y z w →
        0 ≤ z - w)) := by
  have hsne : List.insertionSort
      (fun a b : BillInstance => a.due_date.toRD ≤ b.due_date.toRD)
      bills ≠ [] := by
    intro hcon
    apply hne
    have hperm := List.perm_insertionSort
      (fun a b : BillInstance => a.due_date.toRD ≤ b.due_date.toRD)
      bills
    rw [hcon] at hperm
    exact (hperm.symm).eq_nil
  obtain ⟨last, hlast⟩ : ∃ l, (List.insertionSort
      (fun a b : BillInstance => a.due_date.toRD ≤ b.due_date.toRD)
      bills).getLast? = some l := by
    cases hgl : (List.insertionSort
        (fun a b : BillInstance => a.due_date.toRD ≤ b.due_date.toRD)
        bills).getLast? with
    | none => exact absurd (List.getLast?_eq_none_iff.1 hgl) hsne
    | some l => exact ⟨l, rfl⟩
  unfold LPScheduler.optimize_contributions
  dsimp only
  rw [hlast]
  dsimp only
  by_cases hopt : status = .optimal
  · subst hopt
    rw [if_neg (by decide :
      ¬ LpStatusName .optimal ≠ "Optimal")]
    refine ⟨⟨fun ⟨e, he⟩ => absurd he (by simp), fun h => absurd rfl h⟩,
      fun h => absurd rfl h, ?_⟩
    intro amounts dues n T hn hpos
    exact lp_feasible_bounded amounts dues n T hn hpos
  · have hname : LpStatusName status ≠ "Optimal" := by
      cases status <;> first | exact absurd rfl hopt | decide
    rw [if_pos hname]
    refine ⟨⟨fun _ => hopt, fun _ => ⟨_, rfl⟩⟩, fun _ => rfl, ?_⟩
    intro amounts dues n T hn hpos
    exact lp_feasible_bounded amounts dues n T hn hpos

/-- C9 counterexample: with no targets, the scheduler crashes with
IndexError at `bills[-1]` even when the solver status is Optimal — an
error that is not a solver-status failure. -/
theorem lp_optimization_empty_crash :
    LPScheduler.optimize_contributions [] ⟨2024, 1, 1⟩ .optimal
        (fun _ _ => 0) = .error .indexError ∧
    LpStatusName .optimal = "Optimal" :=
  ⟨rfl, rfl⟩

/-- Witness for C9 (amended): a nonempty target list with an
infeasible status surfaces the ValueError. -/
theorem lp_optimization_error_iff_witness :
    LPScheduler.optimize_contributions [⟨⟨2024, 1, 2⟩, "tax", 100⟩]
        ⟨2024, 1, 1⟩ .infeasible (fun _ _ => 0)
      = .error (.valueError "Could not find optimal solution.") :=
  (lp_optimization_error_iff [⟨⟨2024, 1, 2⟩, "tax", 100⟩] ⟨2024, 1, 1⟩
    .infeasible (fun _ _ => 0) (List.cons_ne_nil _ _)).2.1 (by decide)

end SinkingFund
